import Mathlib

/-!
Verification of the text-analysis core of `valida` (src/valida/app.py).

The source's extraction pipeline works on Python `str`; here text is a
`List Char`.  Python's `str.lower`, `re.IGNORECASE`, `\w`, `\s` and `\d`
are modelled on the ASCII and Latin-1 character ranges, which cover the
whole vocabulary of the source (keywords with accented letters such as
`ressonância magnética`, `suspensão de suas atividades`).

Each regular expression of the source is hand-compiled into a
deterministic matcher over `List Char`.  Where the Python backtracking
engine could in principle backtrack, the compiled matcher is deterministic
because the relevant character classes are disjoint; each such spot is
justified in a comment at the definition.
-/

namespace Valida

/-- Python `str.lower` on one character, restricted to ASCII `A`-`Z` and the
Latin-1 uppercase range `À`-`Þ` (192-222, skipping `×` = 215), which both map
by adding 32.  All other characters are fixed. -/
def low (c : Char) : Char :=
  if 65 ≤ c.toNat ∧ c.toNat ≤ 90 then Char.ofNat (c.toNat + 32)
  else if 192 ≤ c.toNat ∧ c.toNat ≤ 222 ∧ c.toNat ≠ 215 then Char.ofNat (c.toNat + 32)
  else c

/-- Python `str.upper` on one character, on the same ASCII/Latin-1 scope:
`a`-`z` and `à`-`þ` (224-254, skipping `÷` = 247) map by subtracting 32. -/
def upperC (c : Char) : Char :=
  if 97 ≤ c.toNat ∧ c.toNat ≤ 122 then Char.ofNat (c.toNat - 32)
  else if 224 ≤ c.toNat ∧ c.toNat ≤ 254 ∧ c.toNat ≠ 247 then Char.ofNat (c.toNat - 32)
  else c

/-- Python regex `\w` (Unicode word character), restricted to ASCII and
Latin-1: digits, ASCII letters, underscore, `ª` (170), `²` `³` (178-179),
`µ` (181), `¹` (185), `º` (186), `¼` `½` `¾` (188-190), and the Latin-1
letters 192-255 except `×` (215) and `÷` (247). -/
def isWordChar (c : Char) : Bool :=
  decide ((48 ≤ c.toNat ∧ c.toNat ≤ 57) ∨ (65 ≤ c.toNat ∧ c.toNat ≤ 90) ∨
    (97 ≤ c.toNat ∧ c.toNat ≤ 122) ∨ c.toNat = 95 ∨ c.toNat = 170 ∨
    (178 ≤ c.toNat ∧ c.toNat ≤ 179) ∨ c.toNat = 181 ∨ c.toNat = 185 ∨
    c.toNat = 186 ∨ (188 ≤ c.toNat ∧ c.toNat ≤ 190) ∨
    (192 ≤ c.toNat ∧ c.toNat ≤ 255 ∧ c.toNat ≠ 215 ∧ c.toNat ≠ 247))

/-- Python regex `\s` (Unicode whitespace), restricted to ASCII and Latin-1:
tab through carriage return (9-13), the separators 28-31, space, next line
(133) and no-break space (160). -/
def isWsChar (c : Char) : Bool :=
  decide ((9 ≤ c.toNat ∧ c.toNat ≤ 13) ∨ (28 ≤ c.toNat ∧ c.toNat ≤ 31) ∨
    c.toNat = 32 ∨ c.toNat = 133 ∨ c.toNat = 160)

/-- Python regex `\d`, restricted to the ASCII digits. -/
def isDigitChar (c : Char) : Bool :=
  decide (48 ≤ c.toNat ∧ c.toNat ≤ 57)

/-- The class `[a-zA-Z]`; with `re.IGNORECASE` the class `[A-Z]` also matches
exactly these characters. -/
def isAsciiLetter (c : Char) : Bool :=
  decide ((65 ≤ c.toNat ∧ c.toNat ≤ 90) ∨ (97 ≤ c.toNat ∧ c.toNat ≤ 122))

/-- The class `[\s/]` of the registry pattern. -/
def isSpSl (c : Char) : Bool :=
  isWsChar c || decide (c = '/')

/-- Word-character test on an optional character; `none` (start or end of
text) counts as a non-word position, exactly as Python `\b` treats the ends
of the string. -/
def isWordOpt : Option Char → Bool
  | none => false
  | some c => isWordChar c

/-- Python `str.lower` over a whole text. -/
def lowList (l : List Char) : List Char := l.map low

/-- Python `str.upper` over a whole text. -/
def upperList (l : List Char) : List Char := l.map upperC

/-- Does `needle` occur at the very front of `hay`? -/
def frontMatch : List Char → List Char → Bool
  | [], _ => true
  | _ :: _, [] => false
  | a :: as, b :: bs => a == b && frontMatch as bs

/-- Python's substring test `needle in hay`. -/
def hasSub (needle : List Char) : List Char → Bool
  | [] => frontMatch needle []
  | c :: rest => frontMatch needle (c :: rest) || hasSub needle rest

/-- Python `re.search` scanning: try the matcher at every start position, leftmost
first, also at the end-of-text position (as Python does). -/
def searchFirst {α : Type} (f : List Char → Option α) : List Char → Option α
  | [] => f []
  | c :: rest =>
    match f (c :: rest) with
    | some g => some g
    | none => searchFirst f rest

/-- Python `re.search` scanning for a pattern whose matcher also needs the character
just before the current position (for `\b`); `prev` is that character. -/
def searchPrev {α : Type} (f : Option Char → List Char → Option α) :
    Option Char → List Char → Option α
  | prev, [] => f prev []
  | prev, c :: rest =>
    match f prev (c :: rest) with
    | some g => some g
    | none => searchPrev f (some c) rest

/-- Boolean variant of `searchPrev` for predicates. -/
def anyPos (f : Option Char → List Char → Bool) : Option Char → List Char → Bool
  | prev, [] => f prev []
  | prev, c :: rest => f prev (c :: rest) || anyPos f (some c) rest

/-- Boolean variant of `searchFirst` for predicates that ignore `prev`. -/
def anyPosSimple (f : List Char → Bool) : List Char → Bool
  | [] => f []
  | c :: rest => f (c :: rest) || anyPosSimple f rest

/-- The last character of `pre` when nonempty, else the fallback `prev`:
the character standing just before the suffix that follows `pre`. -/
def lastOr (prev : Option Char) (pre : List Char) : Option Char :=
  match pre.getLast? with
  | some c => some c
  | none => prev

/-! ## classify_document -/

/-- The `exam_keywords` list of `classify_document`. -/
def exam_keywords : List (List Char) :=
  ["exame".toList, "resultado de".toList, "hemograma".toList,
   "ressonância magnética".toList, "raio-x".toList, "tomografia".toList]

/-- The `report_keywords` list of `classify_document`. -/
def report_keywords : List (List Char) :=
  ["laudo".toList, "atestado".toList, "relatório médico".toList, "declaração".toList]

/-- The classifier `classify_document`: keyword presence on the lower-cased text, exam
keywords first, report keywords refining an exam hit to `Laudo com Exame`. -/
def classify_document (text : List Char) : String :=
  let lower_text := lowList text
  if exam_keywords.any (fun w => hasSub w lower_text) then
    if report_keywords.any (fun w => hasSub w lower_text) then "Laudo com Exame"
    else "Exame"
  else if report_keywords.any (fun w => hasSub w lower_text) then "Laudo"
  else "Desconhecido"

/-! ## extract_cid

The regex is `cid[-\s]?10?\s*[:\-\s]?\s*([a-zA-Z]\d{1,2}(\.\d{1,2})?)`
with `re.IGNORECASE`, searched, and group 1 upper-cased. -/

/-- One optional fractional digit: the inner `\d{1,2}` may greedily take a
second digit; the pattern ends right after, so taking it never fails. -/
def digOpt : List Char → List Char
  | e :: _ => if isDigitChar e = true then [e] else []
  | [] => []

/-- The optional suffix `(\.\d{1,2})?` of the code group: matched characters,
or `[]` when the optional group does not match.  Greedy matching is exact
here because nothing follows the group in the pattern. -/
def fracPart : List Char → List Char
  | c :: d :: r => if c = '.' ∧ isDigitChar d = true then c :: d :: digOpt r else []
  | _ => []

/-- After the first mandatory digit of `\d{1,2}`: greedily take a second
digit, then the optional fraction.  Again exact because the pattern ends
after the group. -/
def dig2Frac : List Char → List Char
  | e :: r2 => if isDigitChar e = true then e :: fracPart r2 else fracPart (e :: r2)
  | [] => []

/-- The capture group `[a-zA-Z]\d{1,2}(\.\d{1,2})?` matched at the front of
the input; returns the matched characters. -/
def codeGroup : List Char → Option (List Char)
  | a :: d :: rest =>
    if isAsciiLetter a = true ∧ isDigitChar d = true then some (a :: d :: dig2Frac rest)
    else none
  | _ => none

/-- The optional `0` of `10?`.  Deterministically consumed when present:
if the continuation after consuming `0` failed, the continuation without
consuming would have to start at `0`, but it must begin with `\s`, `[:\-\s]`
or a letter, none of which is `0`. -/
def zeroOpt : List Char → List Char
  | c :: r => if c = '0' then r else c :: r
  | [] => []

/-- The optional one-character separator `[:\-\s]?`.  Deterministically
consumed when present: it is only reached after `\s*` has removed all
whitespace, and if the continuation after consuming failed, the alternative
continuation would have to start with `\s*`-then-letter at a `[:\-]`
character, which fails too. -/
def sepOpt : List Char → List Char
  | c :: r => if c = ':' ∨ c = '-' ∨ isWsChar c = true then r else c :: r
  | [] => []

/-- The part of the CID pattern after `cid[-\s]?`: mandatory `1`, optional
`0`, then `\s*[:\-\s]?\s*` and the capture group. -/
def cidAfterSep : List Char → Option (List Char)
  | c :: rest =>
    if c = '1' then
      codeGroup (List.dropWhile isWsChar (sepOpt (List.dropWhile isWsChar (zeroOpt rest))))
    else none
  | [] => none

/-- The whole CID pattern anchored at the current position: literal `cid`
(case-insensitive), optional `[-\s]` separator (with the Python backtracking
fallback to not consuming it), then `cidAfterSep`. -/
def cidMatchAt : List Char → Option (List Char)
  | a :: b :: c :: rest =>
    if low a = 'c' ∧ low b = 'i' ∧ low c = 'd' then
      match rest with
      | x :: xs =>
        if x = '-' ∨ isWsChar x = true then
          match cidAfterSep xs with
          | some g => some g
          | none => cidAfterSep rest
        else cidAfterSep rest
      | [] => cidAfterSep []
    else none
  | _ => none

/-- The extractor `extract_cid`: first match of the CID pattern, capture group upper-cased;
`none` when the pattern occurs nowhere. -/
def extract_cid (text : List Char) : Option (List Char) :=
  match searchFirst cidMatchAt text with
  | some g => some (upperList g)
  | none => none

/-! ## extract_registry

The regex is `\b(CRM|CRP|CREFITO|CRO|COREN)\b[\s/]*([A-Z]{2})?[\s/]*(\d+)`
with `re.IGNORECASE`, searched once; on a match the label
`f"{type.upper()}/{state.upper() if state else ''} {number}"` is built and
the status is the constant `"Ativo"`. -/

/-- Case-insensitively strip the lower-cased literal `kw` from the front,
returning the matched original characters and the remainder. -/
def stripTokenCI : List Char → List Char → Option (List Char × List Char)
  | [], l => some ([], l)
  | k :: ks, c :: rest =>
    if low c = k then Option.map (fun p => (c :: p.1, p.2)) (stripTokenCI ks rest)
    else none
  | _ :: _, [] => none

/-- The registry-type tokens, lower-cased, in the source's alternation order.
No token is a prefix of another and any two differ before either ends, so at
a given position at most one alternative can match and trying them in order
needs no backtracking across alternatives. -/
def regTokens : List (List Char) :=
  ["crm".toList, "crp".toList, "crefito".toList, "cro".toList, "coren".toList]

/-- Try the alternation of registry-type tokens at the current position. -/
def tryTokens : List (List Char) → List Char → Option (List Char × List Char)
  | [], _ => none
  | t :: ts, l =>
    match stripTokenCI t l with
    | some mr => some mr
    | none => tryTokens ts l

/-- The three capture groups of the registry pattern. -/
structure RegGroups where
  rtype : List Char
  state : Option (List Char)
  number : List Char
deriving DecidableEq

/-- The suffix `[\s/]*([A-Z]{2})?[\s/]*(\d+)` of the registry pattern.
`[\s/]` and letters are disjoint, so the greedy `[\s/]*` runs are exact; when
two letters follow, the optional state group must take them, because with the
group empty the following `[\s/]*` cannot advance and `\d+` would face a
letter.  Returns the optional state group and the digits group. -/
def regAfterToken (l : List Char) : Option (Option (List Char) × List Char) :=
  let t1 := l.dropWhile isSpSl
  match t1 with
  | a :: b :: rest =>
    if isAsciiLetter a = true ∧ isAsciiLetter b = true then
      let ds := (rest.dropWhile isSpSl).takeWhile isDigitChar
      if ds = [] then none else some (some [a, b], ds)
    else
      let ds := (a :: b :: rest).takeWhile isDigitChar
      if ds = [] then none else some (none, ds)
  | _ =>
    let ds := t1.takeWhile isDigitChar
    if ds = [] then none else some (none, ds)

/-- The whole registry pattern anchored at the current position, `prev` being
the character just before it (for the leading `\b`). -/
def regMatchAt (prev : Option Char) (l : List Char) : Option RegGroups :=
  if isWordOpt prev = false then
    match tryTokens regTokens l with
    | some (m, rest) =>
      if isWordOpt rest.head? = false then
        match regAfterToken rest with
        | some (st, ds) => some ⟨m, st, ds⟩
        | none => none
      else none
    | none => none
  else none

/-- The state segment of the label: `state.upper() if state else ''`. -/
def stateStr : Option (List Char) → List Char
  | some s => upperList s
  | none => []

/-- The label `f"{registry_type.upper()}/{state_segment} {number}"`. -/
def regLabel (g : RegGroups) : List Char :=
  upperList g.rtype ++ '/' :: (stateStr g.state ++ ' ' :: g.number)

/-- The extractor `extract_registry`: label and simulated status `"Ativo"` on a match,
the pair `(None, None)` otherwise. -/
def extract_registry (text : List Char) : Option (List Char) × Option String :=
  match searchPrev regMatchAt none text with
  | some g => (some (regLabel g), some "Ativo")
  | none => (none, none)

/-! ## check_afastamento -/

/-- The keyword list of `check_afastamento`. -/
def kwList : List (List Char) :=
  ["afastamento".toList, "repouso".toList, "suspensão de suas atividades".toList,
   "impossibilitado de comparecer".toList, "afastar-se".toList]

/-- The pattern `\b<keyword>\b` anchored at the current position: the literal
keyword case-insensitively, with a word-boundary (exactly one word character
among the two adjacent positions) on each side. -/
def kwMatchAt (kw : List Char) (prev : Option Char) (l : List Char) : Bool :=
  match stripTokenCI kw l with
  | some (m, rest) =>
    (isWordOpt prev != isWordOpt m.head?) && (isWordOpt m.getLast? != isWordOpt rest.head?)
  | none => false

/-- The detector `check_afastamento`: true when any keyword matches with word boundaries
somewhere in the text. -/
def check_afastamento (text : List Char) : Bool :=
  kwList.any (fun kw => anyPos (kwMatchAt kw) none text)

/-! ## check_signature -/

/-- Is the head of the list a colon? -/
def headColon : List Char → Bool
  | c :: _ => decide (c = ':')
  | [] => false

/-- The pattern `ass\w*:` anchored at the current position.  The greedy `\w*`
is exact: it stops at the first non-word character, which must then be the
colon, and any backtracked shorter run would leave a word character where the
colon is required. -/
def sigMatchAt : List Char → Bool
  | a :: b :: c :: rest =>
    if low a = 'a' ∧ low b = 's' ∧ low c = 's' then headColon (rest.dropWhile isWordChar)
    else false
  | _ => false

/-- The detector `check_signature`: true when `ass\w*:` matches anywhere (no leading word
boundary in the source's pattern). -/
def check_signature (text : List Char) : Bool :=
  anyPosSimple sigMatchAt text

/-- Modelled from the spec: a word beginning with the stem for signature,
followed immediately by a colon — the signature pattern with a leading word
boundary, which the source's pattern `ass\w*:` lacks. -/
def sigWordMatchAt (prev : Option Char) (l : List Char) : Bool :=
  !(isWordOpt prev) && sigMatchAt l

/-! ## Declarative forms of the CID pattern -/

/-- A run of regex whitespace. -/
def AllWs (w : List Char) : Prop := ∀ c ∈ w, isWsChar c = true

/-- What the optional one-character separator `[:\-\s]?` can match. -/
def SepShape (sep : List Char) : Prop :=
  sep = [] ∨ ∃ c, sep = [c] ∧ (c = ':' ∨ c = '-' ∨ isWsChar c = true)

/-- What the optional one-character separator `[-\s]?` can match. -/
def Sep1Shape (sep : List Char) : Prop :=
  sep = [] ∨ ∃ c, sep = [c] ∧ (c = '-' ∨ isWsChar c = true)

/-- What `\d{1,2}` can match. -/
def Digits12 (ds : List Char) : Prop :=
  (∃ d, ds = [d] ∧ isDigitChar d = true) ∨
  (∃ d e, ds = [d, e] ∧ isDigitChar d = true ∧ isDigitChar e = true)

/-- The language of the capture group `[a-zA-Z]\d{1,2}(\.\d{1,2})?`. -/
def CodePat (code : List Char) : Prop :=
  ∃ a ds frac, code = a :: (ds ++ frac) ∧ isAsciiLetter a = true ∧ Digits12 ds ∧
    (frac = [] ∨ ∃ es, frac = '.' :: es ∧ Digits12 es)

/-- The language of the source's whole CID pattern
`cid[-\s]?10?\s*[:\-\s]?\s*([a-zA-Z]\d{1,2}(\.\d{1,2})?)` (case-insensitive):
the marker, an optional dash-or-whitespace, the mandatory `1`, an optional
`0`, whitespace, an optional separator, whitespace, and the code group. -/
def CidPat (s : List Char) : Prop :=
  ∃ m sep1 z w1 sep2 w2 code,
    s = m ++ sep1 ++ '1' :: (z ++ w1 ++ sep2 ++ w2 ++ code) ∧
    lowList m = "cid".toList ∧ Sep1Shape sep1 ∧ (z = [] ∨ z = ['0']) ∧
    AllWs w1 ∧ SepShape sep2 ∧ AllWs w2 ∧ CodePat code

/-- Modelled from the claim's wording of the CID pattern: the marker `CID`
(case-insensitive), optionally followed by `-10` or `10`, optionally followed
by one separator (colon, dash or space), followed by the code group — with no
mandatory `1` and no whitespace runs.  Kept to compare with the source's
pattern. -/
def SpecCidPat (s : List Char) : Prop :=
  ∃ m ten sep code, s = m ++ ten ++ sep ++ code ∧ lowList m = "cid".toList ∧
    (ten = [] ∨ ten = "-10".toList ∨ ten = "10".toList) ∧
    (sep = [] ∨ sep = [':'] ∨ sep = ['-'] ∨ sep = [' ']) ∧ CodePat code

/-! ## The analysis record and the approval rule -/

/-- The `results` dictionary stored after a successful analysis. -/
structure AnalysisResult where
  doc_type : String
  cid : Option (List Char)
  registry_info : Option (List Char) × Option String
  afastamento : Bool
  signature : Bool
  raw_text : List Char
deriving DecidableEq

/-- Running the five extractors on the OCR text, as `display_uploader` does. -/
def analyze (text : List Char) : AnalysisResult :=
  ⟨classify_document text, extract_cid text, extract_registry text,
   check_afastamento text, check_signature text, text⟩

/-- Python truthiness of the optional code string: `None` and the empty
string are falsy. -/
def truthyStr : Option (List Char) → Bool
  | none => false
  | some s => !s.isEmpty

/-- The rule `is_approved` of `display_results`: document type in
`['Laudo', 'Laudo com Exame']`, truthy cid, registry status equal to
`"Ativo"`, absence flag, signature flag — all of them. -/
def is_approved (res : AnalysisResult) : Bool :=
  (decide (res.doc_type = "Laudo") || decide (res.doc_type = "Laudo com Exame"))
  && truthyStr res.cid
  && decide (res.registry_info.2 = some "Ativo")
  && res.afastamento
  && res.signature

/-! ## Session state and the upload step -/

/-- The Streamlit session state used by `main`/`display_uploader`. -/
structure SessionState where
  analysis_complete : Bool
  results : Option AnalysisResult
  error_message : Option String
deriving DecidableEq

/-- One run of `display_uploader`'s processing block on an uploaded file:
the external image-open/OCR step either yields text or throws.  On success
all five extractions are stored as one record, the completion flag is set and
the error message cleared; on failure only the error message is set. -/
def processUpload (st : SessionState) (ocr : Except String (List Char)) : SessionState :=
  match ocr with
  | Except.ok text => ⟨true, some (analyze text), none⟩
  | Except.error e =>
    ⟨st.analysis_complete, st.results, some ("Ocorreu um erro ao processar o arquivo: " ++ e)⟩

/-! ## Character-class lemmas -/

theorem low_letter_word {c k : Char} (h : low c = k) (hk : isAsciiLetter k = true) :
    isWordChar c = true := by
  unfold low at h
  split at h
  · rename_i h1
    simp only [isWordChar, decide_eq_true_eq]
    omega
  · split at h
    · rename_i h1 h2
      simp only [isWordChar, decide_eq_true_eq]
      omega
    · subst h
      simp only [isAsciiLetter, decide_eq_true_eq] at hk
      simp only [isWordChar, decide_eq_true_eq]
      omega

theorem letter_not_ws {a : Char} (h : isAsciiLetter a = true) : isWsChar a = false := by
  simp only [isAsciiLetter, decide_eq_true_eq] at h
  simp only [isWsChar, decide_eq_false_iff_not]
  omega

theorem ws_word_false {a : Char} (h : isWsChar a = true) : isWordChar a = false := by
  simp only [isWsChar, decide_eq_true_eq] at h
  simp only [isWordChar, decide_eq_false_iff_not]
  omega

theorem letter_word {a : Char} (h : isAsciiLetter a = true) : isWordChar a = true := by
  simp only [isAsciiLetter, decide_eq_true_eq] at h
  simp only [isWordChar, decide_eq_true_eq]
  omega

theorem digit_word {a : Char} (h : isDigitChar a = true) : isWordChar a = true := by
  simp only [isDigitChar, decide_eq_true_eq] at h
  simp only [isWordChar, decide_eq_true_eq]
  omega

theorem letter_ne_of_toNat {a : Char} (k : Char) (h : isAsciiLetter a = true)
    (hk : (65 ≤ k.toNat ∧ k.toNat ≤ 90) ∨ (97 ≤ k.toNat ∧ k.toNat ≤ 122) → False) :
    a ≠ k := by
  intro he
  subst he
  simp only [isAsciiLetter, decide_eq_true_eq] at h
  exact hk h

theorem ws_ne_of_toNat {a : Char} (k : Char) (h : isWsChar a = true)
    (hk : isWsChar k = false) : a ≠ k := by
  intro he
  subst he
  rw [h] at hk
  exact Bool.noConfusion hk

/-! ## Substring lemmas -/

theorem frontMatch_iff {needle hay : List Char} :
    frontMatch needle hay = true ↔ ∃ q, hay = needle ++ q := by
  induction needle generalizing hay with
  | nil => simp [frontMatch]
  | cons a as ih =>
    cases hay with
    | nil =>
      simp only [frontMatch, List.cons_append]
      constructor
      · intro h
        exact absurd h (Bool.false_ne_true)
      · rintro ⟨q, hq⟩
        exact absurd hq (by simp)
    | cons b bs =>
      simp only [frontMatch, Bool.and_eq_true, beq_iff_eq, ih, List.cons_append,
        List.cons.injEq]
      constructor
      · rintro ⟨rfl, q, rfl⟩
        exact ⟨q, rfl, rfl⟩
      · rintro ⟨q, rfl, rfl⟩
        exact ⟨rfl, q, rfl⟩

theorem hasSub_iff {needle hay : List Char} :
    hasSub needle hay = true ↔ ∃ p q, hay = p ++ needle ++ q := by
  induction hay with
  | nil =>
    simp only [hasSub, frontMatch_iff]
    constructor
    · rintro ⟨q, hq⟩
      exact ⟨[], q, by simpa using hq⟩
    · rintro ⟨p, q, hpq⟩
      have hp : p = [] ∧ needle ++ q = [] := by
        have := hpq.symm
        rw [List.append_assoc] at this
        exact List.append_eq_nil.mp this
      exact ⟨q, hp.2.symm⟩
  | cons c rest ih =>
    simp only [hasSub, Bool.or_eq_true, frontMatch_iff, ih]
    constructor
    · rintro (⟨q, hq⟩ | ⟨p, q, hpq⟩)
      · exact ⟨[], q, by simpa using hq⟩
      · exact ⟨c :: p, q, by simp [hpq]⟩
    · rintro ⟨p, q, hpq⟩
      cases p with
      | nil => exact Or.inl ⟨q, by simpa using hpq⟩
      | cons d p2 =>
        right
        have hcd : c = d ∧ rest = p2 ++ (needle ++ q) := by
          simpa using hpq
        exact ⟨p2, q, by simpa using hcd.2⟩

/-- A case-insensitive occurrence of the (lower-case) word `w` in `text` is a
decomposition of `text` whose middle lower-cases to `w`. -/
theorem contains_lower_iff {w text : List Char} :
    hasSub w (lowList text) = true ↔ ∃ p s q, text = p ++ s ++ q ∧ lowList s = w := by
  rw [hasSub_iff]
  constructor
  · rintro ⟨p, q, hpq⟩
    rw [List.append_assoc] at hpq
    rcases List.map_eq_append_iff.mp hpq with ⟨p2, rest, rfl, hp2, hrest⟩
    rcases List.map_eq_append_iff.mp hrest with ⟨s, q2, rfl, hs, hq2⟩
    exact ⟨p2, s, q2, by simp, hs⟩
  · rintro ⟨p, s, q, rfl, hs⟩
    exact ⟨lowList p, lowList q, by simp [lowList, hs.symm]⟩

/-! ## Scan lemmas -/

theorem lastOr_nil {prev : Option Char} : lastOr prev [] = prev := rfl

theorem lastOr_none_eq {pre : List Char} : lastOr none pre = pre.getLast? := by
  unfold lastOr
  cases h : pre.getLast? <;> simp

theorem lastOr_cons {prev : Option Char} {c : Char} {pre : List Char} :
    lastOr prev (c :: pre) = lastOr (some c) pre := by
  unfold lastOr
  cases pre with
  | nil => simp
  | cons d ps =>
    rw [List.getLast?_cons_cons]
    cases h : (d :: ps).getLast? with
    | none =>
      rw [List.getLast?_eq_none_iff] at h
      exact absurd h (by simp)
    | some e => simp

theorem anyPos_iff {f : Option Char → List Char → Bool} {t : List Char} {prev : Option Char} :
    anyPos f prev t = true ↔
      ∃ pre post, t = pre ++ post ∧ f (lastOr prev pre) post = true := by
  induction t generalizing prev with
  | nil =>
    simp only [anyPos]
    constructor
    · intro h
      exact ⟨[], [], rfl, by simpa [lastOr_nil] using h⟩
    · rintro ⟨pre, post, heq, hf⟩
      rcases List.append_eq_nil.mp heq.symm with ⟨rfl, rfl⟩
      simpa [lastOr_nil] using hf
  | cons c rest ih =>
    simp only [anyPos, Bool.or_eq_true]
    constructor
    · rintro (h | h)
      · exact ⟨[], c :: rest, rfl, by simpa [lastOr_nil] using h⟩
      · rcases ih.mp h with ⟨pre, post, heq, hf⟩
        exact ⟨c :: pre, post, by simp [heq], by rwa [lastOr_cons]⟩
    · rintro ⟨pre, post, heq, hf⟩
      cases pre with
      | nil =>
        left
        simp only [List.nil_append] at heq
        rw [heq]
        simpa [lastOr_nil] using hf
      | cons d pre2 =>
        right
        have hd : c = d ∧ rest = pre2 ++ post := by
          simpa using heq
        refine ih.mpr ⟨pre2, post, hd.2, ?_⟩
        rw [← hd.1] at hf
        rw [lastOr_cons] at hf
        exact hf

theorem anyPosSimple_iff {f : List Char → Bool} {t : List Char} :
    anyPosSimple f t = true ↔ ∃ pre post, t = pre ++ post ∧ f post = true := by
  induction t with
  | nil =>
    simp only [anyPosSimple]
    constructor
    · intro h
      exact ⟨[], [], rfl, h⟩
    · rintro ⟨pre, post, heq, hf⟩
      rcases List.append_eq_nil.mp heq.symm with ⟨rfl, rfl⟩
      exact hf
  | cons c rest ih =>
    simp only [anyPosSimple, Bool.or_eq_true]
    constructor
    · rintro (h | h)
      · exact ⟨[], c :: rest, rfl, h⟩
      · rcases ih.mp h with ⟨pre, post, heq, hf⟩
        exact ⟨c :: pre, post, by simp [heq], hf⟩
    · rintro ⟨pre, post, heq, hf⟩
      cases pre with
      | nil =>
        left
        simp only [List.nil_append] at heq
        rwa [heq]
      | cons d pre2 =>
        right
        have hd : c = d ∧ rest = pre2 ++ post := by
          simpa using heq
        exact ih.mpr ⟨pre2, post, hd.2, hf⟩

/-- Compute one step of `searchFirst` past a failing position. -/
theorem searchFirst_cons_none {α : Type} {f : List Char → Option α} {c : Char}
    {rest : List Char} (h : f (c :: rest) = none) :
    searchFirst f (c :: rest) = searchFirst f rest := by
  simp [searchFirst, h]

/-- Compute one step of `searchPrev` past a failing position. -/
theorem searchPrev_cons_none {α : Type} {f : Option Char → List Char → Option α}
    {prev : Option Char} {c : Char} {rest : List Char} (h : f prev (c :: rest) = none) :
    searchPrev f prev (c :: rest) = searchPrev f (some c) rest := by
  simp [searchPrev, h]

/-- Complete case analysis of a leftmost-first scan: either no position
matches, or the scan returns the match of the first matching position. -/
theorem searchFirst_cases {α : Type} (f : List Char → Option α) (t : List Char) :
    (searchFirst f t = none ∧ ∀ pre post, t = pre ++ post → f post = none) ∨
    (∃ pre post g, t = pre ++ post ∧ searchFirst f t = some g ∧ f post = some g ∧
      ∀ pre2 post2, t = pre2 ++ post2 → pre2.length < pre.length → f post2 = none) := by
  induction t with
  | nil =>
    cases hf : f [] with
    | none =>
      left
      refine ⟨by simp [searchFirst, hf], ?_⟩
      intro pre post heq
      rcases List.append_eq_nil.mp heq.symm with ⟨rfl, rfl⟩
      exact hf
    | some g =>
      right
      refine ⟨[], [], g, rfl, by simp [searchFirst, hf], hf, ?_⟩
      intro p q h hl
      simp at hl
  | cons c rest ih =>
    cases hf : f (c :: rest) with
    | some g =>
      right
      refine ⟨[], c :: rest, g, rfl, by simp [searchFirst, hf], hf, ?_⟩
      intro p q h hl
      simp at hl
    | none =>
      have hstep : searchFirst f (c :: rest) = searchFirst f rest :=
        searchFirst_cons_none hf
      rcases ih with ⟨h1, h2⟩ | ⟨pre, post, g, heq, hs, hfp, hmin⟩
      · left
        refine ⟨by rw [hstep]; exact h1, ?_⟩
        intro pre post heq
        cases pre with
        | nil =>
          simp only [List.nil_append] at heq
          rw [← heq]
          exact hf
        | cons d pre2 =>
          have hd : c = d ∧ rest = pre2 ++ post := by
            simpa using heq
          exact h2 pre2 post hd.2
      · right
        refine ⟨c :: pre, post, g, by simp [heq], by rw [hstep]; exact hs, hfp, ?_⟩
        intro pre2 post2 heq2 hl
        cases pre2 with
        | nil =>
          simp only [List.nil_append] at heq2
          rw [← heq2]
          exact hf
        | cons d pre3 =>
          have hd : c = d ∧ rest = pre3 ++ post2 := by
            simpa using heq2
          refine hmin pre3 post2 hd.2 ?_
          simpa using Nat.lt_of_succ_lt_succ (by simpa using hl)

theorem searchPrev_isSome_iff {α : Type} {f : Option Char → List Char → Option α}
    {t : List Char} {prev : Option Char} :
    (searchPrev f prev t).isSome = true ↔
      ∃ pre post, t = pre ++ post ∧ (f (lastOr prev pre) post).isSome = true := by
  induction t generalizing prev with
  | nil =>
    simp only [searchPrev]
    constructor
    · intro h
      exact ⟨[], [], rfl, by simpa [lastOr_nil] using h⟩
    · rintro ⟨pre, post, heq, hf⟩
      rcases List.append_eq_nil.mp heq.symm with ⟨rfl, rfl⟩
      simpa [lastOr_nil] using hf
  | cons c rest ih =>
    constructor
    · intro h
      cases hf : f prev (c :: rest) with
      | some g => exact ⟨[], c :: rest, rfl, by simp [lastOr_nil, hf]⟩
      | none =>
        have hstep : searchPrev f prev (c :: rest) = searchPrev f (some c) rest := by
          simp [searchPrev, hf]
        rw [hstep] at h
        rcases ih.mp h with ⟨pre, post, heq, hfp⟩
        exact ⟨c :: pre, post, by simp [heq], by rwa [lastOr_cons]⟩
    · rintro ⟨pre, post, heq, hfp⟩
      cases hf : f prev (c :: rest) with
      | some g => simp [searchPrev, hf]
      | none =>
        have hstep : searchPrev f prev (c :: rest) = searchPrev f (some c) rest := by
          simp [searchPrev, hf]
        rw [hstep]
        cases pre with
        | nil =>
          simp only [List.nil_append] at heq
          rw [← heq, lastOr_nil] at hfp
          rw [hf] at hfp
          simp at hfp
        | cons d pre2 =>
          have hd : c = d ∧ rest = pre2 ++ post := by
            simpa using heq
          refine ih.mpr ⟨pre2, post, hd.2, ?_⟩
          rw [← hd.1] at hfp
          rw [lastOr_cons] at hfp
          exact hfp

/-- A scan with previous-character tracking returns the match at a position
when every strictly earlier position fails. -/
theorem searchPrev_first {α : Type} {f : Option Char → List Char → Option α}
    {pre post : List Char} {prev : Option Char} {g : α}
    (hf : f (lastOr prev pre) post = some g)
    (hmin : ∀ pre2 post2, pre ++ post = pre2 ++ post2 → pre2.length < pre.length →
      f (lastOr prev pre2) post2 = none) :
    searchPrev f prev (pre ++ post) = some g := by
  induction pre generalizing prev with
  | nil =>
    rw [lastOr_nil] at hf
    cases post with
    | nil => simpa [searchPrev] using hf
    | cons c rest => simp [searchPrev, hf]
  | cons c pre2 ih =>
    have hhead : f prev (c :: (pre2 ++ post)) = none := by
      have := hmin [] (c :: pre2 ++ post) (by simp) (by simp)
      simpa [lastOr_nil] using this
    rw [List.cons_append, searchPrev_cons_none hhead]
    refine ih ?_ ?_
    · rw [← lastOr_cons]
      exact hf
    · intro pre3 post3 heq hl
      have := hmin (c :: pre3) post3 (by simp [heq]) (by simpa using Nat.succ_lt_succ hl)
      rwa [lastOr_cons] at this

/-! ## Case-insensitive literal matching -/

theorem stripTokenCI_eq_some_iff {kw l m r : List Char} :
    stripTokenCI kw l = some (m, r) ↔ l = m ++ r ∧ lowList m = kw := by
  induction kw generalizing l m with
  | nil =>
    simp only [stripTokenCI, Option.some.injEq, Prod.mk.injEq]
    constructor
    · rintro ⟨rfl, rfl⟩
      simp [lowList]
    · rintro ⟨rfl, hm⟩
      have : m = [] := List.map_eq_nil_iff.mp hm
      subst this
      simp
  | cons k ks ih =>
    cases l with
    | nil =>
      simp only [stripTokenCI]
      constructor
      · intro h
        exact absurd h (by simp)
      · rintro ⟨hl, hm⟩
        rcases List.append_eq_nil.mp hl.symm with ⟨rfl, rfl⟩
        simp [lowList] at hm
    | cons c rest =>
      simp only [stripTokenCI]
      by_cases hc : low c = k
      · rw [if_pos hc]
        constructor
        · intro h
          rcases Option.map_eq_some'.mp h with ⟨⟨m2, r2⟩, hs, hmr⟩
          obtain ⟨rfl, rfl⟩ : c :: m2 = m ∧ r2 = r := by simpa using hmr
          rcases ih.mp hs with ⟨hrest, hm2⟩
          refine ⟨by simp [hrest], ?_⟩
          simp only [lowList, List.map_cons, hc]
          exact congrArg (List.cons k) hm2
        · rintro ⟨hl, hm⟩
          cases m with
          | nil => simp [lowList] at hm
          | cons x m2 =>
            have hx : c = x ∧ rest = m2 ++ r := by simpa using hl
            have hm2 : low x = k ∧ lowList m2 = ks := by simpa [lowList] using hm
            rw [Option.map_eq_some']
            exact ⟨(m2, r), ih.mpr ⟨hx.2, hm2.2⟩, by simp [hx.1]⟩
      · rw [if_neg hc]
        constructor
        · intro h
          exact absurd h (by simp)
        · rintro ⟨hl, hm⟩
          cases m with
          | nil => simp [lowList] at hm
          | cons x m2 =>
            have hx : c = x ∧ rest = m2 ++ r := by simpa using hl
            have hm2 : low x = k ∧ lowList m2 = ks := by simpa [lowList] using hm
            exact absurd (hx.1 ▸ hm2.1) hc

theorem word_head_of_lowList {s kw : List Char} (h : lowList s = kw)
    (hk : kw.head?.map isAsciiLetter = some true) : isWordOpt s.head? = true := by
  have h2 : List.map low s = kw := h
  cases hkk : kw.head? with
  | none => rw [hkk] at hk; simp at hk
  | some k =>
    rw [hkk] at hk
    simp only [Option.map_some', Option.some.injEq] at hk
    have hh : (s.head?).map low = some k := by
      rw [← List.head?_map, h2, hkk]
    cases hs : s.head? with
    | none => rw [hs] at hh; simp at hh
    | some c =>
      rw [hs] at hh
      simp only [Option.map_some', Option.some.injEq] at hh
      simpa [isWordOpt] using low_letter_word hh hk

theorem word_last_of_lowList {s kw : List Char} (h : lowList s = kw)
    (hk : kw.getLast?.map isAsciiLetter = some true) : isWordOpt s.getLast? = true := by
  have h2 : List.map low s = kw := h
  cases hkk : kw.getLast? with
  | none => rw [hkk] at hk; simp at hk
  | some k =>
    rw [hkk] at hk
    simp only [Option.map_some', Option.some.injEq] at hk
    have hh : (s.getLast?).map low = some k := by
      rw [← List.getLast?_map, h2, hkk]
    cases hs : s.getLast? with
    | none => rw [hs] at hh; simp at hh
    | some c =>
      rw [hs] at hh
      simp only [Option.map_some', Option.some.injEq] at hh
      simpa [isWordOpt] using low_letter_word hh hk

/-! ## The signature pattern -/

theorem headColon_iff {l : List Char} : headColon l = true ↔ ∃ q, l = ':' :: q := by
  cases l with
  | nil => simp [headColon]
  | cons c q =>
    simp only [headColon, decide_eq_true_eq]
    constructor
    · rintro rfl
      exact ⟨q, rfl⟩
    · rintro ⟨q2, hq⟩
      exact (List.cons.inj hq).1

theorem lowList_eq_three {seg : List Char} {x y z : Char} :
    lowList seg = [x, y, z] ↔
      ∃ a b c, seg = [a, b, c] ∧ low a = x ∧ low b = y ∧ low c = z := by
  constructor
  · intro h
    cases seg with
    | nil => simp [lowList] at h
    | cons a t1 =>
      cases t1 with
      | nil => simp [lowList] at h
      | cons b t2 =>
        cases t2 with
        | nil => simp [lowList] at h
        | cons c t3 =>
          cases t3 with
          | cons d t4 => simp [lowList] at h
          | nil =>
            obtain ⟨h1, h2, h3⟩ : low a = x ∧ low b = y ∧ low c = z := by
              simpa [lowList] using h
            exact ⟨a, b, c, rfl, h1, h2, h3⟩
  · rintro ⟨a, b, c, rfl, rfl, rfl, rfl⟩
    simp [lowList]

theorem sigMatchAt_iff {l : List Char} :
    sigMatchAt l = true ↔
      ∃ s mid post, l = s ++ mid ++ ':' :: post ∧ lowList s = "ass".toList ∧
        ∀ x ∈ mid, isWordChar x = true := by
  constructor
  · intro h
    cases l with
    | nil => simp [sigMatchAt] at h
    | cons a t1 =>
      cases t1 with
      | nil => simp [sigMatchAt] at h
      | cons b t2 =>
        cases t2 with
        | nil => simp [sigMatchAt] at h
        | cons c rest =>
          simp only [sigMatchAt] at h
          split at h
          · rename_i hlow
            rcases headColon_iff.mp h with ⟨post, hpost⟩
            refine ⟨[a, b, c], rest.takeWhile isWordChar, post, ?_, ?_, ?_⟩
            · have hrest : rest = rest.takeWhile isWordChar ++ ':' :: post := by
                conv_lhs => rw [← List.takeWhile_append_dropWhile isWordChar rest]
                rw [hpost]
              calc a :: b :: c :: rest
                  = a :: b :: c :: (rest.takeWhile isWordChar ++ ':' :: post) := by
                    rw [← hrest]
                _ = [a, b, c] ++ rest.takeWhile isWordChar ++ ':' :: post := by simp
            · simp [lowList, hlow.1, hlow.2.1, hlow.2.2]
            · intro x hx
              exact List.mem_takeWhile_imp hx
          · exact absurd h (by simp)
  · rintro ⟨s, mid, post, heq, hs, hmid⟩
    rcases lowList_eq_three.mp hs with ⟨a, b, c, rfl, ha, hb, hc⟩
    have hl2 : l = a :: b :: c :: (mid ++ ':' :: post) := by simpa using heq
    rw [hl2]
    simp only [sigMatchAt, if_pos (show low a = 'a' ∧ low b = 's' ∧ low c = 's' from ⟨ha, hb, hc⟩)]
    rw [List.dropWhile_append_of_pos hmid]
    rw [List.dropWhile_cons_of_neg (by decide)]
    simp [headColon]

/-- Soundness of the signature scan: any stem-plus-word-run-plus-colon
occurrence makes `check_signature` true. -/
theorem sig_sound {t p s mid q : List Char} (heq : t = p ++ s ++ mid ++ ':' :: q)
    (hs : lowList s = "ass".toList) (hmid : ∀ x ∈ mid, isWordChar x = true) :
    check_signature t = true := by
  unfold check_signature
  refine anyPosSimple_iff.mpr ⟨p, s ++ mid ++ ':' :: q, by simp [heq], ?_⟩
  exact sigMatchAt_iff.mpr ⟨s, mid, q, by simp, hs, hmid⟩

/-- Completeness of the signature scan: `check_signature` is true only on a
stem-plus-word-run-plus-colon occurrence. -/
theorem sig_complete {t : List Char} (h : check_signature t = true) :
    ∃ p s mid q, t = p ++ s ++ mid ++ ':' :: q ∧ lowList s = "ass".toList ∧
      ∀ x ∈ mid, isWordChar x = true := by
  unfold check_signature at h
  rcases anyPosSimple_iff.mp h with ⟨pre, post, heq, hf⟩
  rcases sigMatchAt_iff.mp hf with ⟨s, mid, q, hpost, hs, hmid⟩
  exact ⟨pre, s, mid, q, by simp [heq, hpost], hs, hmid⟩

/-! ## The word-boundary keyword pattern -/

/-- Soundness of the `\b<kw>\b` scan: a case-insensitive occurrence of the
keyword whose first and last characters are word characters and whose
neighbours are not makes the scan true. -/
theorem kw_sound {kw t p s q : List Char} (heq : t = p ++ s ++ q) (hs : lowList s = kw)
    (hpre : isWordOpt p.getLast? = false) (hpost : isWordOpt q.head? = false)
    (hhead : isWordOpt s.head? = true) (hlast : isWordOpt s.getLast? = true) :
    anyPos (kwMatchAt kw) none t = true := by
  refine anyPos_iff.mpr ⟨p, s ++ q, by simp [heq], ?_⟩
  have hstrip : stripTokenCI kw (s ++ q) = some (s, q) :=
    stripTokenCI_eq_some_iff.mpr ⟨rfl, hs⟩
  rw [kwMatchAt, hstrip, lastOr_none_eq, hpre]
  show ((false != isWordOpt s.head?) && (isWordOpt s.getLast? != isWordOpt q.head?)) = true
  rw [hhead, hlast, hpost]
  rfl

/-- Completeness of the `\b<kw>\b` scan: when it is true there is an
occurrence with a word-boundary (exactly one adjacent word character) on
each side. -/
theorem kw_complete {kw t : List Char} (h : anyPos (kwMatchAt kw) none t = true) :
    ∃ p s q, t = p ++ s ++ q ∧ lowList s = kw ∧
      (isWordOpt p.getLast? != isWordOpt s.head?) = true ∧
      (isWordOpt s.getLast? != isWordOpt q.head?) = true := by
  rcases anyPos_iff.mp h with ⟨pre, post, heq, hf⟩
  rw [kwMatchAt] at hf
  cases hstrip : stripTokenCI kw post with
  | none => rw [hstrip] at hf; simp at hf
  | some mr =>
    rcases mr with ⟨m, rest⟩
    rw [hstrip] at hf
    rcases stripTokenCI_eq_some_iff.mp hstrip with ⟨hpost, hm⟩
    rw [lastOr_none_eq] at hf
    simp only [Bool.and_eq_true] at hf
    exact ⟨pre, m, rest, by simp [heq, hpost], hm, hf.1, hf.2⟩

/-- A stem-colon occurrence starting at a word boundary makes the
boundary-checking spec-side scan true. -/
theorem sigWord_sound {t p s mid q : List Char} (heq : t = p ++ s ++ mid ++ ':' :: q)
    (hs : lowList s = "ass".toList) (hmid : ∀ x ∈ mid, isWordChar x = true)
    (hp : isWordOpt p.getLast? = false) :
    anyPos sigWordMatchAt none t = true := by
  refine anyPos_iff.mpr ⟨p, s ++ mid ++ ':' :: q, by simp [heq], ?_⟩
  unfold sigWordMatchAt
  rw [lastOr_none_eq, hp]
  simp only [Bool.not_false, Bool.true_and]
  exact sigMatchAt_iff.mpr ⟨s, mid, q, by simp, hs, hmid⟩

/-- C6: `check_afastamento` is true on every text containing the word
"afastamento" as a standalone word (case-insensitive, non-word characters or
text ends on both sides), and false when every occurrence of every phrase of
the fixed keyword set has an adjacent word character, i.e. appears only
inside a longer word. -/
theorem C6_afastamento_word_boundary (t : List Char) :
    ((∃ p s q, t = p ++ s ++ q ∧ lowList s = "afastamento".toList ∧
        isWordOpt p.getLast? = false ∧ isWordOpt q.head? = false) →
      check_afastamento t = true) ∧
    ((∀ kw, kw ∈ kwList → ∀ p s q, t = p ++ s ++ q → lowList s = kw →
        isWordOpt p.getLast? = true ∨ isWordOpt q.head? = true) →
      check_afastamento t = false) := by
  constructor
  · rintro ⟨p, s, q, heq, hs, hp, hq⟩
    unfold check_afastamento
    rw [List.any_eq_true]
    refine ⟨"afastamento".toList, by simp [kwList], ?_⟩
    exact kw_sound heq hs hp hq (word_head_of_lowList hs (by decide))
      (word_last_of_lowList hs (by decide))
  · intro hins
    cases hb : check_afastamento t with
    | false => rfl
    | true =>
      exfalso
      unfold check_afastamento at hb
      rw [List.any_eq_true] at hb
      rcases hb with ⟨kw, hkw, hscan⟩
      rcases kw_complete hscan with ⟨p, s, q, heq, hs, hb1, hb2⟩
      have hhead : isWordOpt s.head? = true := by
        fin_cases hkw <;> exact word_head_of_lowList hs (by decide)
      have hlast : isWordOpt s.getLast? = true := by
        fin_cases hkw <;> exact word_last_of_lowList hs (by decide)
      have hpfalse : isWordOpt p.getLast? = false := by
        rw [hhead] at hb1
        cases hx : isWordOpt p.getLast? with
        | false => rfl
        | true => rw [hx] at hb1; simp at hb1
      have hqfalse : isWordOpt q.head? = false := by
        rw [hlast] at hb2
        cases hx : isWordOpt q.head? with
        | false => rfl
        | true => rw [hx] at hb2; simp at hb2
      rcases hins kw hkw p s q heq hs with hc | hc
      · rw [hpfalse] at hc
        exact Bool.noConfusion hc
      · rw [hqfalse] at hc
        exact Bool.noConfusion hc

/-- C6 witness: "afastamento" alone is detected; in "xafastamentos" every
keyword occurrence sits inside a longer word and detection fails. -/
theorem C6_witness :
    check_afastamento ("afastamento".toList) = true ∧
    check_afastamento ("xafastamentos".toList) = false := by
  constructor
  · exact (C6_afastamento_word_boundary ("afastamento".toList)).1
      ⟨[], "afastamento".toList, [], by decide, by decide, by decide, by decide⟩
  · refine (C6_afastamento_word_boundary ("xafastamentos".toList)).2 ?_
    intro kw hkw p s q heq hs
    by_contra hc
    push_neg at hc
    obtain ⟨h1, h2⟩ := hc
    replace h1 : isWordOpt p.getLast? = false := by
      cases h : isWordOpt p.getLast? with
      | false => rfl
      | true => exact absurd h h1
    replace h2 : isWordOpt q.head? = false := by
      cases h : isWordOpt q.head? with
      | false => rfl
      | true => exact absurd h h2
    have hhead : isWordOpt s.head? = true := by
      fin_cases hkw <;> exact word_head_of_lowList hs (by decide)
    have hlast : isWordOpt s.getLast? = true := by
      fin_cases hkw <;> exact word_last_of_lowList hs (by decide)
    have hscan := kw_sound heq hs h1 h2 hhead hlast
    fin_cases hkw
    · exact absurd hscan (by decide)
    · exact absurd hscan (by decide)
    · exact absurd hscan (by decide)
    · exact absurd hscan (by decide)
    · exact absurd hscan (by decide)

/-- C7 counterexample: the text "ele passou: assinatura" contains
"assinatura", and no word in it beginning with the signature stem is followed
by a colon (every stem-colon occurrence starts mid-word), yet
`check_signature` is true — refuting the claim that it is false on every such
text. -/
theorem C7_counterexample :
    hasSub ("assinatura".toList) (lowList ("ele passou: assinatura".toList)) = true ∧
    (∀ p s mid q, "ele passou: assinatura".toList = p ++ s ++ mid ++ ':' :: q →
      lowList s = "ass".toList → (∀ x ∈ mid, isWordChar x = true) →
      isWordOpt p.getLast? = true) ∧
    check_signature ("ele passou: assinatura".toList) = true := by
  refine ⟨by decide, ?_, by decide⟩
  intro p s mid q heq hs hmid
  cases hx : isWordOpt p.getLast? with
  | true => rfl
  | false => exact absurd (sigWord_sound heq hs hmid hx) (by decide)

/-- C7 amended: `check_signature` is true on every text containing
"assinatura" immediately followed by a colon (case-insensitive), and false
exactly on the texts with no occurrence of the letter sequence "ass"
(case-insensitive, not necessarily at a word start) followed by word
characters and a colon. -/
theorem C7_signature (t : List Char) :
    ((∃ p s q, t = p ++ s ++ ':' :: q ∧ lowList s = "assinatura".toList) →
      check_signature t = true) ∧
    (check_signature t = false ↔
      ∀ p s mid q, t = p ++ s ++ mid ++ ':' :: q → lowList s = "ass".toList →
        (∀ x ∈ mid, isWordChar x = true) → False) := by
  constructor
  · rintro ⟨p, s, q, heq, hs⟩
    have hsplit : List.map low s = "ass".toList ++ "inatura".toList := hs
    rcases List.map_eq_append_iff.mp hsplit with ⟨s1, s2, rfl, hs1, hs2⟩
    have hmid : ∀ x ∈ s2, isWordChar x = true := by
      intro x hx
      have hmem : low x ∈ "inatura".toList := by
        rw [← hs2]
        exact List.mem_map_of_mem low hx
      have hlet : isAsciiLetter (low x) = true := by
        have hall : ∀ k ∈ "inatura".toList, isAsciiLetter k = true := by decide
        exact hall (low x) hmem
      exact low_letter_word rfl hlet
    exact sig_sound (by simpa using heq) hs1 hmid
  · constructor
    · intro hb p s mid q heq hs hmid
      have ht := sig_sound heq hs hmid
      rw [ht] at hb
      exact Bool.noConfusion hb
    · intro hno
      cases hb : check_signature t with
      | false => rfl
      | true =>
        exfalso
        rcases sig_complete hb with ⟨p, s, mid, q, heq, hs, hmid⟩
        exact hno p s mid q heq hs hmid

/-- C7 witness: a labelled signature line is detected, and a text containing
"assinatura" with no stem-colon occurrence is rejected. -/
theorem C7_witness :
    check_signature ("Assinatura: Dr".toList) = true ∧
    check_signature ("assinatura do medico".toList) = false := by
  constructor
  · exact (C7_signature ("Assinatura: Dr".toList)).1
      ⟨[], "Assinatura".toList, " Dr".toList, by decide, by decide⟩
  · refine (C7_signature ("assinatura do medico".toList)).2.mpr ?_
    intro p s mid q heq hs hmid
    exact absurd (sig_sound heq hs hmid) (by decide)

/-- C10: because the pattern `ass\w*:` has no leading word boundary,
`check_signature` is true on any text where the letter sequence "ass" is
followed by word characters and a colon, wherever it occurs; in particular it
is true on "ele passou:", although no word there begins with the signature
stem followed by a colon. -/
theorem C10_signature_no_boundary :
    (∀ t p s mid q, t = p ++ s ++ mid ++ ':' :: q → lowList s = "ass".toList →
      (∀ x ∈ mid, isWordChar x = true) → check_signature t = true) ∧
    check_signature ("ele passou:".toList) = true ∧
    (∀ p s mid q, "ele passou:".toList = p ++ s ++ mid ++ ':' :: q →
      lowList s = "ass".toList → (∀ x ∈ mid, isWordChar x = true) →
      isWordOpt p.getLast? = true) := by
  refine ⟨?_, by decide, ?_⟩
  · intro t p s mid q heq hs hmid
    exact sig_sound heq hs hmid
  · intro p s mid q heq hs hmid
    cases hx : isWordOpt p.getLast? with
    | true => rfl
    | false => exact absurd (sigWord_sound heq hs hmid hx) (by decide)

/-- C10 witness: the mid-word stem occurrence in "ele passou:" triggers the
detector. -/
theorem C10_witness : check_signature ("ele passou:".toList) = true :=
  C10_signature_no_boundary.1 ("ele passou:".toList) ("ele p".toList) ("ass".toList)
    ("ou".toList) [] (by decide) (by decide) (by decide)

/-! ## Keyword containment and classification -/

theorem keyword_any_iff {ks : List (List Char)} {t : List Char} :
    ks.any (fun w => hasSub w (lowList t)) = true ↔
      ∃ kw ∈ ks, ∃ p s q, t = p ++ s ++ q ∧ lowList s = kw := by
  rw [List.any_eq_true]
  constructor
  · rintro ⟨kw, hkw, h⟩
    exact ⟨kw, hkw, contains_lower_iff.mp h⟩
  · rintro ⟨kw, hkw, h⟩
    exact ⟨kw, hkw, contains_lower_iff.mpr h⟩

/-- C3: classification precedence — an exam keyword and a report keyword
(case-insensitive substring) give `Laudo com Exame`; an exam keyword alone
gives `Exame`; a report keyword alone gives `Laudo`; neither gives
`Desconhecido`. -/
theorem C3_classify_precedence (t : List Char) :
    ((∃ kw ∈ exam_keywords, ∃ p s q, t = p ++ s ++ q ∧ lowList s = kw) →
     (∃ kw ∈ report_keywords, ∃ p s q, t = p ++ s ++ q ∧ lowList s = kw) →
      classify_document t = "Laudo com Exame") ∧
    ((∃ kw ∈ exam_keywords, ∃ p s q, t = p ++ s ++ q ∧ lowList s = kw) →
     (¬ ∃ kw ∈ report_keywords, ∃ p s q, t = p ++ s ++ q ∧ lowList s = kw) →
      classify_document t = "Exame") ∧
    ((¬ ∃ kw ∈ exam_keywords, ∃ p s q, t = p ++ s ++ q ∧ lowList s = kw) →
     (∃ kw ∈ report_keywords, ∃ p s q, t = p ++ s ++ q ∧ lowList s = kw) →
      classify_document t = "Laudo") ∧
    ((¬ ∃ kw ∈ exam_keywords, ∃ p s q, t = p ++ s ++ q ∧ lowList s = kw) →
     (¬ ∃ kw ∈ report_keywords, ∃ p s q, t = p ++ s ++ q ∧ lowList s = kw) →
      classify_document t = "Desconhecido") := by
  by_cases he : exam_keywords.any (fun w => hasSub w (lowList t)) = true
  · by_cases hr : report_keywords.any (fun w => hasSub w (lowList t)) = true
    · refine ⟨fun _ _ => ?_, fun _ hnr => absurd (keyword_any_iff.mp hr) hnr,
        fun hne _ => absurd (keyword_any_iff.mp he) hne,
        fun hne _ => absurd (keyword_any_iff.mp he) hne⟩
      simp [classify_document, he, hr]
    · refine ⟨fun _ hr2 => absurd (keyword_any_iff.mpr hr2) hr, fun _ _ => ?_,
        fun hne _ => absurd (keyword_any_iff.mp he) hne,
        fun hne _ => absurd (keyword_any_iff.mp he) hne⟩
      simp [classify_document, he, hr]
  · by_cases hr : report_keywords.any (fun w => hasSub w (lowList t)) = true
    · refine ⟨fun he2 _ => absurd (keyword_any_iff.mpr he2) he,
        fun he2 _ => absurd (keyword_any_iff.mpr he2) he, fun _ _ => ?_,
        fun _ hnr => absurd (keyword_any_iff.mp hr) hnr⟩
      simp [classify_document, he, hr]
    · refine ⟨fun he2 _ => absurd (keyword_any_iff.mpr he2) he,
        fun he2 _ => absurd (keyword_any_iff.mpr he2) he,
        fun _ hr2 => absurd (keyword_any_iff.mpr hr2) hr, fun _ _ => ?_⟩
      simp [classify_document, he, hr]

/-- C3 witness: the four precedence branches on four concrete texts. -/
theorem C3_witness :
    classify_document ("laudo do exame".toList) = "Laudo com Exame" ∧
    classify_document ("tomografia".toList) = "Exame" ∧
    classify_document ("atestado medico".toList) = "Laudo" ∧
    classify_document ("receita".toList) = "Desconhecido" := by
  refine ⟨?_, ?_, ?_, ?_⟩
  · exact (C3_classify_precedence ("laudo do exame".toList)).1
      ⟨"exame".toList, by decide, "laudo do ".toList, "exame".toList, [], by decide, by decide⟩
      ⟨"laudo".toList, by decide, [], "laudo".toList, " do exame".toList, by decide, by decide⟩
  · exact (C3_classify_precedence ("tomografia".toList)).2.1
      ⟨"tomografia".toList, by decide, [], "tomografia".toList, [], by decide, by decide⟩
      (fun h => absurd (keyword_any_iff.mpr h) (by decide))
  · exact (C3_classify_precedence ("atestado medico".toList)).2.2.1
      (fun h => absurd (keyword_any_iff.mpr h) (by decide))
      ⟨"atestado".toList, by decide, [], "atestado".toList, " medico".toList, by decide, by decide⟩
  · exact (C3_classify_precedence ("receita".toList)).2.2.2
      (fun h => absurd (keyword_any_iff.mpr h) (by decide))
      (fun h => absurd (keyword_any_iff.mpr h) (by decide))

/-! ## Registry status synthesis -/

/-- C5: the registry status is synthesized from text alone — the label is
present exactly when the pattern matches at some position, the status is
`"Ativo"` exactly when the label is present, and with no label the result is
the absent pair `(None, None)`. -/
theorem C5_registry_status (t : List Char) :
    ((extract_registry t).1.isSome = true ↔
      ∃ pre post, t = pre ++ post ∧ (regMatchAt pre.getLast? post).isSome = true) ∧
    ((extract_registry t).2 = some "Ativo" ↔ (extract_registry t).1.isSome = true) ∧
    ((extract_registry t).1 = none → extract_registry t = (none, none)) := by
  have hiff := @searchPrev_isSome_iff RegGroups regMatchAt t none
  simp only [lastOr_none_eq] at hiff
  unfold extract_registry
  cases hs : searchPrev regMatchAt none t with
  | some g =>
    rw [hs] at hiff
    simp only [Option.isSome_some] at hiff
    exact ⟨by simpa using hiff, by simp, by simp⟩
  | none =>
    rw [hs] at hiff
    simp only [Option.isSome_none] at hiff
    exact ⟨by simpa using hiff, by simp, by simp⟩

/-- C5 witness: a text with no registry identifier yields the absent pair,
one with an identifier yields a label and the synthesized status. -/
theorem C5_witness :
    extract_registry ("sem registro aqui".toList) = (none, none) ∧
    extract_registry ("CRM/SP 123".toList) = (some ("CRM/SP 123".toList), some "Ativo") := by
  constructor
  · exact (C5_registry_status ("sem registro aqui".toList)).2.2 (by decide)
  · decide

/-! ## Totality -/

/-- C8: on every input text each extractor returns a value of its declared
result shape — one of the four labels, an optional code, the matched pair or
the absent pair, and booleans; the Lean model is total by construction. -/
theorem C8_totality (t : List Char) :
    (classify_document t = "Laudo com Exame" ∨ classify_document t = "Exame" ∨
      classify_document t = "Laudo" ∨ classify_document t = "Desconhecido") ∧
    (extract_cid t = none ∨ ∃ c, extract_cid t = some c) ∧
    (extract_registry t = (none, none) ∨
      ∃ l, extract_registry t = (some l, some "Ativo")) ∧
    (check_afastamento t = true ∨ check_afastamento t = false) ∧
    (check_signature t = true ∨ check_signature t = false) := by
  refine ⟨?_, ?_, ?_, ?_, ?_⟩
  · by_cases he : exam_keywords.any (fun w => hasSub w (lowList t)) = true
    · by_cases hr : report_keywords.any (fun w => hasSub w (lowList t)) = true
      · exact Or.inl (by simp [classify_document, he, hr])
      · exact Or.inr (Or.inl (by simp [classify_document, he, hr]))
    · by_cases hr : report_keywords.any (fun w => hasSub w (lowList t)) = true
      · exact Or.inr (Or.inr (Or.inl (by simp [classify_document, he, hr])))
      · exact Or.inr (Or.inr (Or.inr (by simp [classify_document, he, hr])))
  · cases h : extract_cid t with
    | none => exact Or.inl rfl
    | some c => exact Or.inr ⟨c, rfl⟩
  · unfold extract_registry
    cases searchPrev regMatchAt none t with
    | none => exact Or.inl rfl
    | some g => exact Or.inr ⟨regLabel g, rfl⟩
  · cases check_afastamento t
    · exact Or.inr rfl
    · exact Or.inl rfl
  · cases check_signature t
    · exact Or.inr rfl
    · exact Or.inl rfl

/-! ## Session state -/

/-- C9: an OCR failure records one displayable message and leaves the stored
results and the completion flag unchanged (the state machine stays in
Awaiting-Input), and a subsequent successful analysis clears the message and
stores the fully populated result in the same step. -/
theorem C9_error_handling (st : SessionState) (e : String)
    (h : st.analysis_complete = false) :
    (processUpload st (Except.error e)).results = st.results ∧
    (processUpload st (Except.error e)).analysis_complete = false ∧
    (processUpload st (Except.error e)).error_message =
      some ("Ocorreu um erro ao processar o arquivo: " ++ e) ∧
    (∀ text,
      (processUpload (processUpload st (Except.error e)) (Except.ok text)).error_message
        = none ∧
      (processUpload (processUpload st (Except.error e)) (Except.ok text)).results
        = some (analyze text) ∧
      (processUpload (processUpload st (Except.error e)) (Except.ok text)).analysis_complete
        = true) := by
  refine ⟨rfl, ?_, rfl, ?_⟩
  · simpa [processUpload] using h
  · intro text
    exact ⟨rfl, rfl, rfl⟩

/-- C9 witness: the error transition and the follow-up success on the fresh
state. -/
theorem C9_witness :
    (processUpload ⟨false, none, none⟩ (Except.error "falha")).results = none ∧
    (processUpload (processUpload ⟨false, none, none⟩ (Except.error "falha"))
      (Except.ok ("laudo".toList))).results = some (analyze ("laudo".toList)) :=
  ⟨(C9_error_handling ⟨false, none, none⟩ "falha" rfl).1,
    ((C9_error_handling ⟨false, none, none⟩ "falha" rfl).2.2.2 ("laudo".toList)).2.1⟩

/-! ## The approval rule -/

theorem codeGroup_shape {l g : List Char} (h : codeGroup l = some g) :
    ∃ a d r2, l = a :: d :: r2 ∧ isAsciiLetter a = true ∧ isDigitChar d = true ∧
      g = a :: d :: dig2Frac r2 := by
  cases l with
  | nil => simp [codeGroup] at h
  | cons a t1 =>
    cases t1 with
    | nil => simp [codeGroup] at h
    | cons d r2 =>
      simp only [codeGroup] at h
      split at h
      · rename_i hcond
        exact ⟨a, d, r2, rfl, hcond.1, hcond.2, by simpa using h.symm⟩
      · exact absurd h (by simp)

theorem cidAfterSep_shape {l g : List Char} (h : cidAfterSep l = some g) :
    ∃ a d r2, isAsciiLetter a = true ∧ isDigitChar d = true ∧ g = a :: d :: dig2Frac r2 := by
  cases l with
  | nil => simp [cidAfterSep] at h
  | cons c rest =>
    simp only [cidAfterSep] at h
    split at h
    · rcases codeGroup_shape h with ⟨a, d, r2, _, ha, hd, hg⟩
      exact ⟨a, d, r2, ha, hd, hg⟩
    · exact absurd h (by simp)

theorem cidMatchAt_shape {l g : List Char} (h : cidMatchAt l = some g) :
    ∃ a d r2, isAsciiLetter a = true ∧ isDigitChar d = true ∧ g = a :: d :: dig2Frac r2 := by
  cases l with
  | nil => simp [cidMatchAt] at h
  | cons a t1 =>
    cases t1 with
    | nil => simp [cidMatchAt] at h
    | cons b t2 =>
      cases t2 with
      | nil => simp [cidMatchAt] at h
      | cons c rest =>
        cases rest with
        | nil =>
          simp only [cidMatchAt] at h
          split at h
          · exact cidAfterSep_shape h
          · exact absurd h (by simp)
        | cons x xs =>
          simp only [cidMatchAt] at h
          split at h
          · split at h
            · cases hin : cidAfterSep xs with
              | some g2 =>
                rw [hin] at h
                rcases cidAfterSep_shape hin with ⟨a2, d2, r2, ha, hd, hg⟩
                exact ⟨a2, d2, r2, ha, hd, by simpa [hg] using h.symm⟩
              | none =>
                rw [hin] at h
                exact cidAfterSep_shape h
            · exact cidAfterSep_shape h
          · exact absurd h (by simp)

/-- Any code returned by `extract_cid` is a nonempty string. -/
theorem cid_nonempty {t c : List Char} (h : extract_cid t = some c) : c ≠ [] := by
  unfold extract_cid at h
  cases hs : searchFirst cidMatchAt t with
  | none => rw [hs] at h; exact absurd h (by simp)
  | some g =>
    rw [hs] at h
    have hg : c = upperList g := by simpa using h.symm
    rcases searchFirst_cases cidMatchAt t with ⟨hnone, _⟩ | ⟨pre, post, g2, heq, hsf, hf, _⟩
    · rw [hs] at hnone
      exact absurd hnone (by simp)
    · rw [hs] at hsf
      have hg2 : g = g2 := by simpa using hsf
      subst hg2
      rcases cidMatchAt_shape hf with ⟨a, d, r2, _, _, hshape⟩
      rw [hg, hshape]
      simp [upperList]

/-- C1: the verdict is the conjunction of exactly the five criteria — a
report-type document, a diagnosis code present, a registry record present
with status `Ativo`, the absence flag, and the signature flag. -/
theorem C1_approval (text : List Char) :
    is_approved (analyze text) = true ↔
      ((classify_document text = "Laudo" ∨ classify_document text = "Laudo com Exame") ∧
       (∃ c, extract_cid text = some c) ∧
       (∃ l, (extract_registry text).1 = some l ∧
          (extract_registry text).2 = some "Ativo") ∧
       check_afastamento text = true ∧ check_signature text = true) := by
  unfold is_approved analyze
  simp only [Bool.and_eq_true, Bool.or_eq_true, decide_eq_true_eq]
  constructor
  · rintro ⟨⟨⟨⟨hdoc, hcid⟩, hreg⟩, haf⟩, hsig⟩
    refine ⟨hdoc, ?_, ?_, haf, hsig⟩
    · cases hc : extract_cid text with
      | none => rw [hc] at hcid; simp [truthyStr] at hcid
      | some c => exact ⟨c, rfl⟩
    · unfold extract_registry at hreg ⊢
      cases hs : searchPrev regMatchAt none text with
      | none =>
        rw [hs] at hreg
        simp at hreg
      | some g => exact ⟨regLabel g, rfl, rfl⟩
  · rintro ⟨hdoc, ⟨c, hc⟩, ⟨l, hl, hst⟩, haf, hsig⟩
    refine ⟨⟨⟨⟨hdoc, ?_⟩, hst⟩, haf⟩, hsig⟩
    rw [hc]
    have hne := cid_nonempty hc
    cases c with
    | nil => exact absurd rfl hne
    | cons x xs => rfl

/-- C1 witness: a text meeting all five criteria is approved. -/
theorem C1_witness :
    is_approved (analyze ("laudo cid 1 a1 crm 1 afastamento ass:".toList)) = true :=
  (C1_approval ("laudo cid 1 a1 crm 1 afastamento ass:".toList)).mpr
    ⟨Or.inl (by decide), ⟨"A1".toList, by decide⟩,
     ⟨"CRM/ 1".toList, by decide, by decide⟩, by decide, by decide⟩

/-! ## Registry extraction at a concrete occurrence -/

theorem dropWhile_no_head {p : Char → Bool} {l : List Char}
    (h : ∀ c, l.head? = some c → p c = false) : List.dropWhile p l = l := by
  cases l with
  | nil => rfl
  | cons c cs =>
    rw [List.dropWhile_cons_of_neg]
    simp [h c rfl]

theorem takeWhile_none_head {p : Char → Bool} {l : List Char}
    (h : ∀ c, l.head? = some c → p c = false) : List.takeWhile p l = [] := by
  cases l with
  | nil => rfl
  | cons c cs =>
    rw [List.takeWhile_cons_of_neg]
    simp [h c rfl]

theorem takeWhile_digits {ds post : List Char} (hds : ∀ c ∈ ds, isDigitChar c = true)
    (hpost : ∀ c, post.head? = some c → isDigitChar c = false) :
    List.takeWhile isDigitChar (ds ++ post) = ds := by
  rw [List.takeWhile_append_of_pos hds, takeWhile_none_head hpost, List.append_nil]

/-- Compute `regMatchAt` from its three stages. -/
theorem regMatchAt_eq_of {prev : Option Char} {l m rest : List Char}
    {st : Option (List Char)} {ds : List Char}
    (hprev : isWordOpt prev = false)
    (htok : tryTokens regTokens l = some (m, rest))
    (hb : isWordOpt rest.head? = false)
    (hafter : regAfterToken rest = some (st, ds)) :
    regMatchAt prev l = some ⟨m, st, ds⟩ := by
  unfold regMatchAt
  rw [hprev, if_pos rfl, htok]
  show (if isWordOpt rest.head? = false then
      (match regAfterToken rest with
        | some (st2, ds2) => some (RegGroups.mk m st2 ds2)
        | none => none)
    else none) = some (RegGroups.mk m st ds)
  rw [if_pos hb, hafter]

theorem regMatch_concrete_sp {prev : Option Char} {post : List Char}
    (hprev : isWordOpt prev = false)
    (hpost : ∀ c, post.head? = some c → isDigitChar c = false) :
    regMatchAt prev ("CRM/SP 123456".toList ++ post) =
      some ⟨"CRM".toList, some ['S', 'P'], "123456".toList⟩ := by
  have hsplit : ("CRM/SP 123456".toList : List Char) =
      "CRM".toList ++ ('/' :: 'S' :: 'P' :: ' ' :: "123456".toList) := by decide
  have h1 : stripTokenCI ("crm".toList) ("CRM/SP 123456".toList ++ post) =
      some ("CRM".toList, '/' :: 'S' :: 'P' :: ' ' :: ("123456".toList ++ post)) := by
    apply stripTokenCI_eq_some_iff.mpr
    refine ⟨?_, by decide⟩
    rw [hsplit]
    simp
  have h2 : tryTokens regTokens ("CRM/SP 123456".toList ++ post) =
      some ("CRM".toList, '/' :: 'S' :: 'P' :: ' ' :: ("123456".toList ++ post)) := by
    simp only [regTokens, tryTokens, h1]
  have hhead : (("123456".toList : List Char) ++ post).head? = some '1' := by
    rw [show ("123456".toList : List Char) = '1' :: "23456".toList from by decide]
    rfl
  have hds : ((' ' :: ("123456".toList ++ post)).dropWhile isSpSl).takeWhile isDigitChar =
      "123456".toList := by
    rw [List.dropWhile_cons_of_pos (by decide)]
    rw [dropWhile_no_head ?hnsl]
    case hnsl =>
      intro c hc
      rw [hhead] at hc
      obtain rfl : c = '1' := by simpa using hc.symm
      decide
    exact takeWhile_digits (by decide) hpost
  have h3 : regAfterToken ('/' :: 'S' :: 'P' :: ' ' :: ("123456".toList ++ post)) =
      some (some ['S', 'P'], "123456".toList) := by
    have ht1 : List.dropWhile isSpSl ('/' :: 'S' :: 'P' :: ' ' :: ("123456".toList ++ post)) =
        'S' :: 'P' :: (' ' :: ("123456".toList ++ post)) := by
      rw [List.dropWhile_cons_of_pos (by decide), List.dropWhile_cons_of_neg (by decide)]
    simp only [regAfterToken, ht1]
    rw [if_pos (by decide : isAsciiLetter 'S' = true ∧ isAsciiLetter 'P' = true)]
    rw [hds]
    rw [if_neg (by decide : ¬("123456".toList : List Char) = [])]
  exact regMatchAt_eq_of hprev h2 rfl h3

theorem regMatch_concrete_nostate {prev : Option Char} {post : List Char}
    (hprev : isWordOpt prev = false)
    (hpost : ∀ c, post.head? = some c → isDigitChar c = false) :
    regMatchAt prev ("CRM 123456".toList ++ post) =
      some ⟨"CRM".toList, none, "123456".toList⟩ := by
  have hsplit : ("CRM 123456".toList : List Char) =
      "CRM".toList ++ (' ' :: "123456".toList) := by decide
  have h1 : stripTokenCI ("crm".toList) ("CRM 123456".toList ++ post) =
      some ("CRM".toList, ' ' :: ("123456".toList ++ post)) := by
    apply stripTokenCI_eq_some_iff.mpr
    refine ⟨?_, by decide⟩
    rw [hsplit]
    simp
  have h2 : tryTokens regTokens ("CRM 123456".toList ++ post) =
      some ("CRM".toList, ' ' :: ("123456".toList ++ post)) := by
    simp only [regTokens, tryTokens, h1]
  have hhead : (("123456".toList : List Char) ++ post).head? = some '1' := by
    rw [show ("123456".toList : List Char) = '1' :: "23456".toList from by decide]
    rfl
  have hexp : ("123456".toList : List Char) ++ post = '1' :: '2' :: ("3456".toList ++ post) := by
    rw [show ("123456".toList : List Char) = '1' :: '2' :: "3456".toList from by decide]
    simp
  have ht1 : List.dropWhile isSpSl (' ' :: ("123456".toList ++ post)) =
      '1' :: '2' :: ("3456".toList ++ post) := by
    rw [List.dropWhile_cons_of_pos (by decide), hexp,
      List.dropWhile_cons_of_neg (by decide)]
  have h3 : regAfterToken (' ' :: ("123456".toList ++ post)) =
      some (none, "123456".toList) := by
    simp only [regAfterToken, ht1]
    rw [if_neg (by decide : ¬(isAsciiLetter '1' = true ∧ isAsciiLetter '2' = true))]
    rw [← hexp]
    rw [takeWhile_digits (by decide) hpost]
    rw [if_neg (by decide : ¬("123456".toList : List Char) = [])]
  exact regMatchAt_eq_of hprev h2 rfl h3

/-- Scan-level composition: a match at a position with no earlier match fixes
the result of `extract_registry`. -/
theorem extract_registry_found {t pre post : List Char} {g : RegGroups}
    (heq : t = pre ++ post)
    (hmatch : regMatchAt pre.getLast? post = some g)
    (hmin : ∀ pre2 post2, t = pre2 ++ post2 → pre2.length < pre.length →
      regMatchAt pre2.getLast? post2 = none) :
    extract_registry t = (some (regLabel g), some "Ativo") := by
  unfold extract_registry
  have hs : searchPrev regMatchAt none t = some g := by
    rw [heq]
    apply searchPrev_first
    · rw [lastOr_none_eq]
      exact hmatch
    · intro pre2 post2 h2 hl
      rw [lastOr_none_eq]
      exact hmin pre2 post2 (heq.trans h2) hl
  rw [hs]

/-- C4 counterexample: "CRM/SP 1234567" contains the substring
"CRM/SP 123456", but the greedy `\d+` extends over the trailing digit and the
returned label is "CRM/SP 1234567", not "CRM/SP 123456". -/
theorem C4_counterexample :
    (∃ p q, ("CRM/SP 1234567".toList : List Char) = p ++ "CRM/SP 123456".toList ++ q) ∧
    extract_registry ("CRM/SP 1234567".toList) ≠
      (some ("CRM/SP 123456".toList), some "Ativo") := by
  constructor
  · exact ⟨[], "7".toList, by decide⟩
  · decide

/-- C4 amended: on every text of the form `pre ++ "CRM/SP 123456" ++ post`
where the preceding character (if any) is not a word character, the following
character (if any) is not a digit, and the registry pattern matches at no
earlier position, `extract_registry` returns the label "CRM/SP 123456" with
status Ativo; likewise "CRM 123456" (no state) yields the label
"CRM/ 123456" — a dangling separator with an empty state segment — with
status Ativo. -/
theorem C4_registry_extraction (t pre post : List Char) :
    (t = pre ++ "CRM/SP 123456".toList ++ post →
     isWordOpt pre.getLast? = false →
     (∀ c, post.head? = some c → isDigitChar c = false) →
     (∀ pre2 post2, t = pre2 ++ post2 → pre2.length < pre.length →
        regMatchAt pre2.getLast? post2 = none) →
     extract_registry t = (some ("CRM/SP 123456".toList), some "Ativo")) ∧
    (t = pre ++ "CRM 123456".toList ++ post →
     isWordOpt pre.getLast? = false →
     (∀ c, post.head? = some c → isDigitChar c = false) →
     (∀ pre2 post2, t = pre2 ++ post2 → pre2.length < pre.length →
        regMatchAt pre2.getLast? post2 = none) →
     extract_registry t = (some ("CRM/ 123456".toList), some "Ativo")) := by
  constructor
  · intro heq hb hpost hmin
    have hfound := extract_registry_found (by rw [heq, List.append_assoc])
      (regMatch_concrete_sp hb hpost) hmin
    rw [hfound]
    decide
  · intro heq hb hpost hmin
    have hfound := extract_registry_found (by rw [heq, List.append_assoc])
      (regMatch_concrete_nostate hb hpost) hmin
    rw [hfound]
    decide

/-- C4 witness: the two label shapes on the bare identifier texts. -/
theorem C4_witness :
    extract_registry ("CRM/SP 123456".toList) =
      (some ("CRM/SP 123456".toList), some "Ativo") ∧
    extract_registry ("CRM 123456".toList) =
      (some ("CRM/ 123456".toList), some "Ativo") := by
  constructor
  · exact (C4_registry_extraction ("CRM/SP 123456".toList) [] []).1 (by decide) (by decide)
      (fun c hc => absurd hc (by simp))
      (fun p2 q2 h2 hl => absurd hl (by simp))
  · exact (C4_registry_extraction ("CRM 123456".toList) [] []).2 (by decide) (by decide)
      (fun c hc => absurd hc (by simp))
      (fun p2 q2 h2 hl => absurd hl (by simp))

/-! ## Structural lemmas for the CID matcher -/

theorem letter_head_facts {a : Char} (h : isAsciiLetter a = true) :
    isWsChar a = false ∧ a ≠ '0' ∧ a ≠ ':' ∧ a ≠ '-' := by
  refine ⟨letter_not_ws h, ?_, ?_, ?_⟩
  · intro he
    exact absurd (he ▸ h) (by decide)
  · intro he
    exact absurd (he ▸ h) (by decide)
  · intro he
    exact absurd (he ▸ h) (by decide)

theorem zeroOpt_split (r : List Char) :
    ∃ z, r = z ++ zeroOpt r ∧ (z = [] ∨ z = ['0']) := by
  cases r with
  | nil => exact ⟨[], rfl, Or.inl rfl⟩
  | cons c cs =>
    by_cases hc : c = '0'
    · subst hc
      exact ⟨['0'], by simp [zeroOpt], Or.inr rfl⟩
    · exact ⟨[], by simp [zeroOpt, hc], Or.inl rfl⟩

theorem zeroOpt_eq_of_head {l : List Char} (h : ∀ c, l.head? = some c → c ≠ '0') :
    zeroOpt l = l := by
  cases l with
  | nil => rfl
  | cons c cs => simp [zeroOpt, h c rfl]

theorem sepOpt_split (r : List Char) :
    ∃ sep, r = sep ++ sepOpt r ∧ SepShape sep := by
  cases r with
  | nil => exact ⟨[], rfl, Or.inl rfl⟩
  | cons c cs =>
    by_cases hc : c = ':' ∨ c = '-' ∨ isWsChar c = true
    · exact ⟨[c], by simp [sepOpt, hc], Or.inr ⟨c, rfl, hc⟩⟩
    · exact ⟨[], by simp [sepOpt, hc], Or.inl rfl⟩

theorem sepOpt_eq_of_head {l : List Char}
    (h : ∀ c, l.head? = some c → ¬(c = ':' ∨ c = '-' ∨ isWsChar c = true)) :
    sepOpt l = l := by
  cases l with
  | nil => rfl
  | cons c cs => simp [sepOpt, h c rfl]

theorem digOpt_split (r : List Char) :
    ∃ rest, r = digOpt r ++ rest ∧
      (digOpt r = [] ∨ ∃ d, digOpt r = [d] ∧ isDigitChar d = true) := by
  cases r with
  | nil => exact ⟨[], rfl, Or.inl rfl⟩
  | cons e cs =>
    by_cases he : isDigitChar e = true
    · exact ⟨cs, by simp [digOpt, he], Or.inr ⟨e, by simp [digOpt, he], he⟩⟩
    · exact ⟨e :: cs, by simp [digOpt, he], Or.inl (by simp [digOpt, he])⟩

theorem fracPart_split (r : List Char) :
    ∃ rest, r = fracPart r ++ rest ∧
      (fracPart r = [] ∨ ∃ es, fracPart r = '.' :: es ∧ Digits12 es) := by
  cases r with
  | nil => exact ⟨[], rfl, Or.inl rfl⟩
  | cons c cs =>
    cases cs with
    | nil => exact ⟨[c], rfl, Or.inl rfl⟩
    | cons d r2 =>
      by_cases hc : c = '.' ∧ isDigitChar d = true
      · rcases digOpt_split r2 with ⟨rest, hr2, hshape⟩
        refine ⟨rest, ?_, Or.inr ⟨d :: digOpt r2, ?_, ?_⟩⟩
        · simp only [fracPart, if_pos hc]
          simpa using hr2
        · simp [fracPart, hc.1, hc.2]
        · rcases hshape with hnil | ⟨e, he, hde⟩
          · exact Or.inl ⟨d, by simp [hnil], hc.2⟩
          · exact Or.inr ⟨d, e, by simp [he], hc.2, hde⟩
      · exact ⟨c :: d :: r2, by simp [fracPart, if_neg hc], Or.inl (by simp [fracPart, if_neg hc])⟩

theorem dig2Frac_split (r : List Char) :
    ∃ rest ds2 frac, r = dig2Frac r ++ rest ∧ dig2Frac r = ds2 ++ frac ∧
      (ds2 = [] ∨ ∃ e, ds2 = [e] ∧ isDigitChar e = true) ∧
      (frac = [] ∨ ∃ es, frac = '.' :: es ∧ Digits12 es) := by
  cases r with
  | nil => exact ⟨[], [], [], rfl, rfl, Or.inl rfl, Or.inl rfl⟩
  | cons e r2 =>
    by_cases he : isDigitChar e = true
    · rcases fracPart_split r2 with ⟨rest, hr2, hshape⟩
      refine ⟨rest, [e], fracPart r2, ?_, by simp [dig2Frac, he], Or.inr ⟨e, rfl, he⟩, hshape⟩
      simp only [dig2Frac, if_pos he]
      simpa using hr2
    · rcases fracPart_split (e :: r2) with ⟨rest, hr, hshape⟩
      refine ⟨rest, [], fracPart (e :: r2), ?_, by simp [dig2Frac, he], Or.inl rfl, hshape⟩
      simp only [dig2Frac, if_neg he]
      exact hr

/-- Trace of a successful `codeGroup`: the group is a prefix of the input and
lies in the declarative code language. -/
theorem codeGroup_fwd {x g : List Char} (h : codeGroup x = some g) :
    ∃ rest, x = g ++ rest ∧ CodePat g := by
  rcases codeGroup_shape h with ⟨a, d, r2, rfl, ha, hd, rfl⟩
  rcases dig2Frac_split r2 with ⟨rest, ds2, frac, hr2, hsplit, hds2, hfrac⟩
  refine ⟨rest, by simpa using congrArg (fun u => a :: d :: u) hr2, ?_⟩
  rcases hds2 with rfl | ⟨e, rfl, he⟩
  · exact ⟨a, [d], frac, by simp [hsplit], ha, Or.inl ⟨d, rfl, hd⟩, hfrac⟩
  · exact ⟨a, [d, e], frac, by simp [hsplit], ha, Or.inr ⟨d, e, rfl, hd, he⟩, hfrac⟩

/-- The code group accepts any declarative code, whatever follows it. -/
theorem codeGroup_isSome {code rest : List Char} (h : CodePat code) :
    (codeGroup (code ++ rest)).isSome = true := by
  rcases h with ⟨a, ds, frac, rfl, ha, hds, hfrac⟩
  rcases hds with ⟨d, rfl, hd⟩ | ⟨d, e, rfl, hd, he⟩
  · have : (a :: ([d] ++ frac)) ++ rest = a :: d :: (frac ++ rest) := by simp
    rw [this]
    simp [codeGroup, ha, hd]
  · have : (a :: ([d, e] ++ frac)) ++ rest = a :: d :: (e :: (frac ++ rest)) := by simp
    rw [this]
    simp [codeGroup, ha, hd]

/-- A declarative code starts with an ASCII letter. -/
theorem codePat_head {code : List Char} (h : CodePat code) :
    ∃ a tail, code = a :: tail ∧ isAsciiLetter a = true := by
  rcases h with ⟨a, ds, frac, rfl, ha, _, _⟩
  exact ⟨a, ds ++ frac, rfl, ha⟩

/-- The first character after the optional `0` cannot be `0`: it belongs to
a whitespace run, the separator class, or is the letter opening the code. -/
theorem composite_head_ne_zero {w1 sep2 w2 code rest : List Char}
    (h1 : AllWs w1) (hsep : SepShape sep2) (h2 : AllWs w2) (hcode : CodePat code) :
    ∀ c, (w1 ++ (sep2 ++ (w2 ++ (code ++ rest)))).head? = some c → c ≠ '0' := by
  intro c hc
  rcases codePat_head hcode with ⟨a, tail, rfl, ha⟩
  cases w1 with
  | cons x xs =>
    have hx : x = c := by simpa using hc
    rw [← hx]
    exact ws_ne_of_toNat '0' (h1 x (by simp)) (by decide)
  | nil =>
    rcases hsep with rfl | ⟨x, rfl, hx⟩
    · cases w2 with
      | cons y ys =>
        have hy : y = c := by simpa using hc
        rw [← hy]
        exact ws_ne_of_toNat '0' (h2 y (by simp)) (by decide)
      | nil =>
        have hac : a = c := by simpa using hc
        rw [← hac]
        exact (letter_head_facts ha).2.1
    · have hxc : x = c := by simpa using hc
      rw [← hxc]
      rcases hx with rfl | rfl | hxw
      · decide
      · decide
      · exact ws_ne_of_toNat '0' hxw (by decide)

/-- Deterministic processing of `\s*[:\-\s]?\s*`: on any declaratively
decomposed input whose remainder starts with a non-whitespace non-separator
character, the skip-separator-skip steps consume exactly the three optional
components. -/
theorem wsSepWs_proc {w1 sep2 w2 u : List Char}
    (h1 : AllWs w1) (hsep : SepShape sep2) (h2 : AllWs w2)
    (hu : ∀ c, u.head? = some c → isWsChar c = false ∧ c ≠ ':' ∧ c ≠ '-') :
    List.dropWhile isWsChar (sepOpt (List.dropWhile isWsChar (w1 ++ (sep2 ++ (w2 ++ u))))) =
      u := by
  have hdwu : List.dropWhile isWsChar u = u :=
    dropWhile_no_head (fun c hc => (hu c hc).1)
  have hsepu : sepOpt u = u := by
    apply sepOpt_eq_of_head
    intro c hc
    rcases hu c hc with ⟨hws, hcol, hdash⟩
    rintro (rfl | rfl | hw)
    · exact hcol rfl
    · exact hdash rfl
    · rw [hws] at hw
      exact Bool.noConfusion hw
  rcases hsep with rfl | ⟨c0, rfl, hc0⟩
  · rw [List.nil_append, List.dropWhile_append_of_pos h1,
      List.dropWhile_append_of_pos h2, hdwu, hsepu, hdwu]
  · rcases hc0 with rfl | rfl | hws
    · rw [List.dropWhile_append_of_pos h1, List.singleton_append,
        List.dropWhile_cons_of_neg (by decide)]
      rw [show sepOpt (':' :: (w2 ++ u)) = w2 ++ u from by simp [sepOpt]]
      rw [List.dropWhile_append_of_pos h2, hdwu]
    · rw [List.dropWhile_append_of_pos h1, List.singleton_append,
        List.dropWhile_cons_of_neg (by decide)]
      rw [show sepOpt ('-' :: (w2 ++ u)) = w2 ++ u from by simp [sepOpt]]
      rw [List.dropWhile_append_of_pos h2, hdwu]
    · rw [List.dropWhile_append_of_pos h1, List.singleton_append,
        List.dropWhile_cons_of_pos (by simpa using hws),
        List.dropWhile_append_of_pos h2, hdwu, hsepu, hdwu]

/-- Backward direction for `cidAfterSep`: it accepts every declaratively
decomposed input after the mandatory `1`. -/
theorem cidAfterSep_isSome {z w1 sep2 w2 code rest : List Char}
    (hz : z = [] ∨ z = ['0']) (h1 : AllWs w1) (hsep : SepShape sep2) (h2 : AllWs w2)
    (hcode : CodePat code) :
    (cidAfterSep ('1' :: (z ++ (w1 ++ (sep2 ++ (w2 ++ (code ++ rest))))))).isSome = true := by
  have hu : ∀ c, (code ++ rest).head? = some c →
      isWsChar c = false ∧ c ≠ ':' ∧ c ≠ '-' := by
    intro c hc
    rcases codePat_head hcode with ⟨a, tail, rfl, ha⟩
    obtain rfl : a = c := by simpa using hc
    rcases letter_head_facts ha with ⟨hws, _, hcol, hdash⟩
    exact ⟨hws, hcol, hdash⟩
  have hzero : zeroOpt (z ++ (w1 ++ (sep2 ++ (w2 ++ (code ++ rest))))) =
      w1 ++ (sep2 ++ (w2 ++ (code ++ rest))) := by
    rcases hz with rfl | rfl
    · rw [List.nil_append]
      exact zeroOpt_eq_of_head (composite_head_ne_zero h1 hsep h2 hcode)
    · simp [zeroOpt]
  simp only [cidAfterSep, if_pos rfl, hzero]
  rw [wsSepWs_proc h1 hsep h2 hu]
  exact codeGroup_isSome hcode

/-- The parser `cidAfterSep` rejects inputs that do not begin with `1`. -/
theorem cidAfterSep_ne_one {c : Char} {r : List Char} (h : c ≠ '1') :
    cidAfterSep (c :: r) = none := by
  simp [cidAfterSep, h]

/-- Composing the four prefix splits of the deterministic parse. -/
theorem chain_decomp {r0 z t0 w1 t1 sep2 s1 w2 t2 g rest : List Char}
    (hz : r0 = z ++ t0) (h1 : t0 = w1 ++ t1) (hs : t1 = sep2 ++ s1)
    (h2 : s1 = w2 ++ t2) (hg : t2 = g ++ rest) :
    r0 = z ++ (w1 ++ (sep2 ++ (w2 ++ (g ++ rest)))) := by
  subst hg
  subst h2
  subst hs
  subst h1
  subst hz
  rfl

/-- Forward direction for `cidAfterSep`: a successful parse decomposes the
input into the pattern components, the group being the code itself. -/
theorem cidAfterSep_fwd {l g : List Char} (h : cidAfterSep l = some g) :
    ∃ z w1 sep2 w2 rest, l = '1' :: (z ++ (w1 ++ (sep2 ++ (w2 ++ (g ++ rest))))) ∧
      (z = [] ∨ z = ['0']) ∧ AllWs w1 ∧ SepShape sep2 ∧ AllWs w2 ∧ CodePat g := by
  cases l with
  | nil => simp [cidAfterSep] at h
  | cons c rest0 =>
    by_cases hc : c = '1'
    · subst hc
      have hred : cidAfterSep ('1' :: rest0) =
          codeGroup (List.dropWhile isWsChar (sepOpt (List.dropWhile isWsChar
            (zeroOpt rest0)))) := by
        simp [cidAfterSep]
      rw [hred] at h
      rcases zeroOpt_split rest0 with ⟨z, hz1, hz2⟩
      rcases sepOpt_split (List.dropWhile isWsChar (zeroOpt rest0)) with ⟨sep2, hs1, hs2⟩
      rcases codeGroup_fwd h with ⟨rest, hcg, hpat⟩
      refine ⟨z, (zeroOpt rest0).takeWhile isWsChar, sep2,
        (sepOpt (List.dropWhile isWsChar (zeroOpt rest0))).takeWhile isWsChar, rest,
        ?_, hz2, fun c hc => List.mem_takeWhile_imp hc,
        hs2, fun c hc => List.mem_takeWhile_imp hc, hpat⟩
      have e1 : zeroOpt rest0 =
          (zeroOpt rest0).takeWhile isWsChar ++ List.dropWhile isWsChar (zeroOpt rest0) :=
        (List.takeWhile_append_dropWhile isWsChar (zeroOpt rest0)).symm
      have e2 : sepOpt (List.dropWhile isWsChar (zeroOpt rest0)) =
          (sepOpt (List.dropWhile isWsChar (zeroOpt rest0))).takeWhile isWsChar ++
            List.dropWhile isWsChar (sepOpt (List.dropWhile isWsChar (zeroOpt rest0))) :=
        (List.takeWhile_append_dropWhile isWsChar _).symm
      exact congrArg (List.cons '1') (chain_decomp hz1 e1 hs1 e2 hcg)
    · rw [cidAfterSep_ne_one hc] at h
      exact absurd h (by simp)

theorem cidMatchAt_cons_no_sep {a b c x : Char} {xs : List Char}
    (hlow : low a = 'c' ∧ low b = 'i' ∧ low c = 'd')
    (hx : ¬(x = '-' ∨ isWsChar x = true)) :
    cidMatchAt (a :: b :: c :: x :: xs) = cidAfterSep (x :: xs) := by
  simp only [cidMatchAt, if_pos hlow, if_neg hx]

theorem cidMatchAt_cons_sep {a b c x : Char} {xs : List Char}
    (hlow : low a = 'c' ∧ low b = 'i' ∧ low c = 'd')
    (hx : x = '-' ∨ isWsChar x = true) :
    cidMatchAt (a :: b :: c :: x :: xs) =
      (match cidAfterSep xs with
        | some g => some g
        | none => cidAfterSep (x :: xs)) := by
  simp only [cidMatchAt, if_pos hlow, if_pos hx]

/-- Forward direction of the position matcher: a successful match yields a
prefix in the declarative CID language. -/
theorem cidMatchAt_fwd {l g : List Char} (h : cidMatchAt l = some g) :
    ∃ s rest, l = s ++ rest ∧ CidPat s := by
  cases l with
  | nil => simp [cidMatchAt] at h
  | cons a t1 =>
    cases t1 with
    | nil => simp [cidMatchAt] at h
    | cons b t2 =>
      cases t2 with
      | nil => simp [cidMatchAt] at h
      | cons c r =>
        by_cases hlow : low a = 'c' ∧ low b = 'i' ∧ low c = 'd'
        case neg => simp [cidMatchAt, hlow] at h
        case pos =>
          cases r with
          | nil => simp [cidMatchAt, hlow, cidAfterSep] at h
          | cons x xs =>
            by_cases hx : x = '-' ∨ isWsChar x = true
            · rw [cidMatchAt_cons_sep hlow hx] at h
              cases hin : cidAfterSep xs with
              | some g2 =>
                rw [hin] at h
                have hg : g2 = g := by simpa using h
                subst hg
                rcases cidAfterSep_fwd hin with ⟨z, w1, sep2, w2, rest, hxs, hz, h1, hs, h2, hpat⟩
                refine ⟨[a, b, c] ++ [x] ++ '1' :: (z ++ w1 ++ sep2 ++ w2 ++ g2), rest, ?_, ?_⟩
                · rw [show (a :: b :: c :: x :: xs : List Char) =
                    a :: b :: c :: x :: xs from rfl]
                  rw [hxs]
                  simp [List.append_assoc]
                · exact ⟨[a, b, c], [x], z, w1, sep2, w2, g2, rfl,
                    by simp [lowList, hlow.1, hlow.2.1, hlow.2.2],
                    Or.inr ⟨x, rfl, hx⟩, hz, h1, hs, h2, hpat⟩
              | none =>
                rw [hin] at h
                have hx1 : x ≠ '1' := by
                  rcases hx with rfl | hw
                  · decide
                  · exact ws_ne_of_toNat '1' hw (by decide)
                rw [cidAfterSep_ne_one hx1] at h
                exact absurd h (by simp)
            · rw [cidMatchAt_cons_no_sep hlow hx] at h
              rcases cidAfterSep_fwd h with ⟨z, w1, sep2, w2, rest, hxxs, hz, h1, hs, h2, hpat⟩
              have hx1 : x = '1' ∧ xs = z ++ (w1 ++ (sep2 ++ (w2 ++ (g ++ rest)))) := by
                simpa using hxxs
              refine ⟨[a, b, c] ++ [] ++ '1' :: (z ++ w1 ++ sep2 ++ w2 ++ g), rest, ?_, ?_⟩
              · rw [hx1.1, hx1.2]
                simp [List.append_assoc]
              · exact ⟨[a, b, c], [], z, w1, sep2, w2, g, rfl,
                  by simp [lowList, hlow.1, hlow.2.1, hlow.2.2],
                  Or.inl rfl, hz, h1, hs, h2, hpat⟩

/-- Backward direction of the position matcher: any declarative CID prefix is
accepted. -/
theorem cidMatchAt_bwd {s rest : List Char} (h : CidPat s) :
    (cidMatchAt (s ++ rest)).isSome = true := by
  rcases h with ⟨m, sep1, z, w1, sep2, w2, code, hs, hm, hsep1, hz, h1, hsepsh, h2, hcode⟩
  rcases lowList_eq_three.mp hm with ⟨a, b, c, rfl, ha, hb, hc⟩
  subst hs
  rcases hsep1 with rfl | ⟨x, rfl, hx⟩
  · have heq : (([a, b, c] ++ [] ++ '1' :: (z ++ w1 ++ sep2 ++ w2 ++ code)) ++ rest :
        List Char) = a :: b :: c :: '1' :: (z ++ (w1 ++ (sep2 ++ (w2 ++ (code ++ rest))))) := by
      simp [List.append_assoc]
    rw [heq, show (a :: b :: c :: '1' :: (z ++ (w1 ++ (sep2 ++ (w2 ++ (code ++ rest))))) :
      List Char) = a :: b :: c :: '1' :: (z ++ (w1 ++ (sep2 ++ (w2 ++ (code ++ rest))))) from rfl]
    rw [cidMatchAt_cons_no_sep ⟨ha, hb, hc⟩ (by decide)]
    exact cidAfterSep_isSome hz h1 hsepsh h2 hcode
  · have heq : (([a, b, c] ++ [x] ++ '1' :: (z ++ w1 ++ sep2 ++ w2 ++ code)) ++ rest :
        List Char) =
        a :: b :: c :: x :: ('1' :: (z ++ (w1 ++ (sep2 ++ (w2 ++ (code ++ rest)))))) := by
      simp [List.append_assoc]
    rw [heq]
    rw [cidMatchAt_cons_sep ⟨ha, hb, hc⟩ hx]
    have hsome := @cidAfterSep_isSome z w1 sep2 w2 code rest hz h1 hsepsh h2 hcode
    cases hin : cidAfterSep ('1' :: (z ++ (w1 ++ (sep2 ++ (w2 ++ (code ++ rest)))))) with
    | some g => simp
    | none =>
      rw [hin] at hsome
      simp at hsome

/-- C2 counterexample: "CID:M54.5" contains a substring matching the claim's
pattern (marker, no "10" part, one separator, a code), yet `extract_cid`
returns `none`: the source's regex requires a literal `1` after the marker. -/
theorem C2_counterexample :
    (∃ p s q, ("CID:M54.5".toList : List Char) = p ++ s ++ q ∧ SpecCidPat s) ∧
    extract_cid ("CID:M54.5".toList) = none := by
  refine ⟨⟨[], "CID:M54.5".toList, [], by decide, ?_⟩, by decide⟩
  refine ⟨"CID".toList, [], [':'], "M54.5".toList, by decide, by decide,
    Or.inl rfl, Or.inr (Or.inl rfl), ?_⟩
  exact ⟨'M', ['5', '4'], ['.', '5'], by decide, by decide,
    Or.inr ⟨'5', '4', rfl, by decide, by decide⟩,
    Or.inr ⟨['5'], rfl, Or.inl ⟨'5', rfl, by decide⟩⟩⟩

/-- C2 amended: `extract_cid` returns a code exactly when the text contains a
substring of the source's pattern language (marker `cid`, optional dash or
whitespace, mandatory `1`, optional `0`, whitespace, optional separator,
whitespace, then the code group), and the returned value is the upper-cased
capture group of the leftmost match. -/
theorem C2_cid_extraction (t : List Char) :
    ((extract_cid t).isSome = true ↔ ∃ p s q, t = p ++ s ++ q ∧ CidPat s) ∧
    (∀ c, extract_cid t = some c →
      ∃ p q g, t = p ++ q ∧ cidMatchAt q = some g ∧ c = upperList g ∧
        ∀ p2 q2, t = p2 ++ q2 → p2.length < p.length → cidMatchAt q2 = none) := by
  constructor
  · constructor
    · intro h
      unfold extract_cid at h
      rcases searchFirst_cases cidMatchAt t with ⟨hnone, hall⟩ |
        ⟨pre, post, g, heq, hsf, hf, hmin⟩
      · rw [hnone] at h
        simp at h
      · rcases cidMatchAt_fwd hf with ⟨s, rest, hpost, hpat⟩
        exact ⟨pre, s, rest, by rw [heq, hpost, List.append_assoc], hpat⟩
    · rintro ⟨p, s, q, heq, hpat⟩
      unfold extract_cid
      rcases searchFirst_cases cidMatchAt t with ⟨hnone, hall⟩ |
        ⟨pre, post, g, heq2, hsf, hf, hmin⟩
      · exfalso
        have hzero := hall p (s ++ q) (by rw [heq, List.append_assoc])
        have h2 := @cidMatchAt_bwd s q hpat
        rw [hzero] at h2
        simp at h2
      · rw [hsf]
        simp
  · intro c h
    unfold extract_cid at h
    rcases searchFirst_cases cidMatchAt t with ⟨hnone, hall⟩ |
      ⟨pre, post, g, heq, hsf, hf, hmin⟩
    · rw [hnone] at h
      simp at h
    · rw [hsf] at h
      have hc : c = upperList g := by simpa using h.symm
      exact ⟨pre, post, g, heq, hf, hc, hmin⟩

/-- C2 witness: on "ficha CID-10: m54.5 fim" the extractor returns the
upper-cased group of the leftmost match. -/
theorem C2_witness :
    ∃ p q g, ("ficha CID-10: m54.5 fim".toList : List Char) = p ++ q ∧
      cidMatchAt q = some g ∧ ("M54.5".toList : List Char) = upperList g ∧
      ∀ p2 q2, ("ficha CID-10: m54.5 fim".toList : List Char) = p2 ++ q2 →
        p2.length < p.length → cidMatchAt q2 = none :=
  (C2_cid_extraction ("ficha CID-10: m54.5 fim".toList)).2 ("M54.5".toList) (by decide)

end Valida
